import Mathlib

/-!
# Verification of the spreadsheet patch engine of `fill_payroll_workbook_from_hours.py`

This file is a shallow embedding, in Lean 4, of the core of the payroll
workbook filler (repository `ScanioMoving/AutomationPayroll`, file
`src/fill_payroll_workbook_from_hours.py`).  Python strings become Lean
`String`/`List Char`; the `xml.etree` element trees that the engine mutates
become explicit record types; Python `dict`s become association lists kept in
insertion order; Python `float`s are modelled as exact rationals (the
kernel-computable fraction type `Q` below);
fallible code (Python exceptions) returns `Option`.

Each embedded definition keeps the snake_case name of the Python function it
translates.  The regular-expression substitutions of the source
(`FORMULA_CELL_REF_RE`, `SHEET_DATA_XML_RE`, `CALC_PR_XML_RE`) are embedded by
character-level matchers that reproduce the exact backtracking behaviour of
the Python `re` engine on those concrete patterns.
-/

namespace Payroll

/-! ## Character classes and digit strings -/

def isUpperAZ (c : Char) : Bool := 'A' ≤ c && c ≤ 'Z'

def isDigit09 (c : Char) : Bool := '0' ≤ c && c ≤ '9'

/-- `int(...)` on a nonempty string of decimal digits. -/
def natOfDigits (ds : List Char) : Nat :=
  ds.foldl (fun a c => a * 10 + (c.toNat - '0'.toNat)) 0

/-- `str(...)` on a Python `int`, as a character list. -/
def intToChars (i : Int) : List Char :=
  if i < 0 then '-' :: Nat.toDigits 10 i.natAbs else Nat.toDigits 10 i.toNat

/-! ## The `FORMULA_CELL_REF_RE` matcher

`FORMULA_CELL_REF_RE = re.compile(r"(\$?)([A-Z]{1,3})(\$?)(\d+)")`.

`matchRefAt` attempts this pattern at the head of a character list, with the
backtracking semantics of the Python `re` engine: the optional `\$?` groups
consume a `$` when present (backtracking to the empty alternative can never
help, because the following mandatory class — letters resp. digits — can
never match `$`); the greedy `[A-Z]{1,3}` succeeds only when the maximal run
of uppercase letters at that point has length 1–3 (a shorter prefix of a
longer run is always followed by another letter, which matches neither `\$?`
nor `\d+`). -/

structure RefMatch where
  colAbs : Bool
  col : List Char
  rowAbs : Bool
  digits : List Char
deriving Repr, DecidableEq

/-- The exact characters consumed by a match of `FORMULA_CELL_REF_RE`. -/
def RefMatch.render (m : RefMatch) : List Char :=
  (if m.colAbs then ['$'] else []) ++ m.col ++
    (if m.rowAbs then ['$'] else []) ++ m.digits

/-- The row number of a matched reference (`int(row_text)`). -/
def RefMatch.row (m : RefMatch) : Nat := natOfDigits m.digits

/-- Consume an optional leading `$` (the `\$?` groups of the pattern). -/
def stripDollar (cs : List Char) : Bool × List Char :=
  match cs with
  | c :: rest => if c = '$' then (true, rest) else (false, cs)
  | [] => (false, [])

def matchRefAt (cs : List Char) : Option (RefMatch × List Char) :=
  let s1 := stripDollar cs
  let letters := s1.2.takeWhile isUpperAZ
  let rest1 := s1.2.dropWhile isUpperAZ
  if letters.length = 0 ∨ 3 < letters.length then none
  else
    let s2 := stripDollar rest1
    let digits := s2.2.takeWhile isDigit09
    let rest2 := s2.2.dropWhile isDigit09
    if digits.length = 0 then none
    else some (⟨s1.1, letters, s2.1, digits⟩, rest2)

theorem length_dropWhile_le (p : Char → Bool) (l : List Char) :
    (l.dropWhile p).length ≤ l.length := by
  induction l with
  | nil => simp [List.dropWhile]
  | cons c cs ih =>
    by_cases h : p c
    · simp only [List.dropWhile, h]
      exact Nat.le_succ_of_le ih
    · simp [List.dropWhile, h]

theorem length_takeWhile_add_dropWhile (p : Char → Bool) (l : List Char) :
    (l.takeWhile p).length + (l.dropWhile p).length = l.length := by
  conv_rhs => rw [← List.takeWhile_append_dropWhile (p := p) (l := l)]
  rw [List.length_append]

theorem stripDollar_length_le (cs : List Char) :
    (stripDollar cs).2.length ≤ cs.length := by
  rcases cs with _ | ⟨c, rest⟩
  · simp [stripDollar]
  · by_cases hc : c = '$' <;> simp [stripDollar, hc]

theorem matchRefAt_rest_lt {cs : List Char} {m : RefMatch} {rest : List Char}
    (h : matchRefAt cs = some (m, rest)) : rest.length < cs.length := by
  unfold matchRefAt at h
  by_cases h1 : ((stripDollar cs).2.takeWhile isUpperAZ).length = 0 ∨
      3 < ((stripDollar cs).2.takeWhile isUpperAZ).length
  · rw [if_pos h1] at h
    exact absurd h (by simp)
  · rw [if_neg h1] at h
    by_cases h2 : ((stripDollar ((stripDollar cs).2.dropWhile isUpperAZ)).2.takeWhile
        isDigit09).length = 0
    · rw [if_pos h2] at h
      exact absurd h (by simp)
    · rw [if_neg h2] at h
      simp only [Option.some.injEq, Prod.mk.injEq] at h
      have hrest := h.2
      have hA : rest.length ≤
          (stripDollar ((stripDollar cs).2.dropWhile isUpperAZ)).2.length := by
        rw [← hrest]; exact length_dropWhile_le _ _
      have hB : (stripDollar ((stripDollar cs).2.dropWhile isUpperAZ)).2.length ≤
          ((stripDollar cs).2.dropWhile isUpperAZ).length := stripDollar_length_le _
      have hC := length_takeWhile_add_dropWhile isUpperAZ (stripDollar cs).2
      have hD : (stripDollar cs).2.length ≤ cs.length := stripDollar_length_le _
      have hne : ((stripDollar cs).2.takeWhile isUpperAZ).length ≠ 0 := fun hz =>
        h1 (Or.inl hz)
      omega

/-- `FORMULA_CELL_REF_RE.sub(repl, ...)`: scan left to right, replacing each
non-overlapping match by `repl` applied to its groups, copying other
characters verbatim.  Structural recursion on a fuel counter (each step
consumes at least one input character, so `fuel = input length` suffices;
see `subRefsFuel_eq_of_le`). -/
def subRefsFuel (repl : RefMatch → List Char) : Nat → List Char → List Char
  | 0, cs => cs
  | _ + 1, [] => []
  | fuel + 1, c :: cs =>
    match matchRefAt (c :: cs) with
    | some (m, rest) => repl m ++ subRefsFuel repl fuel rest
    | none => c :: subRefsFuel repl fuel cs

def subRefs (repl : RefMatch → List Char) (cs : List Char) : List Char :=
  subRefsFuel repl cs.length cs

/-- Fuel irrelevance: any fuel at least the input length gives the same
result, so `subRefs` is the total left-to-right substitution. -/
theorem subRefsFuel_eq_of_le (repl : RefMatch → List Char) :
    ∀ fuel fuel' cs, cs.length ≤ fuel → cs.length ≤ fuel' →
      subRefsFuel repl fuel cs = subRefsFuel repl fuel' cs := by
  intro fuel
  induction fuel with
  | zero =>
    intro fuel' cs h _
    have : cs = [] := List.length_eq_zero.mp (Nat.le_zero.mp h)
    subst this
    cases fuel' <;> simp [subRefsFuel]
  | succ n ih =>
    intro fuel' cs h h'
    rcases cs with _ | ⟨c, cs'⟩
    · cases fuel' <;> simp [subRefsFuel]
    · rcases fuel' with _ | n'
      · exact absurd h' (by simp)
      · simp only [subRefsFuel]
        cases hm : matchRefAt (c :: cs') with
        | some pr =>
          rcases pr with ⟨m, rest⟩
          have hrest := matchRefAt_rest_lt hm
          simp only [List.length_cons] at hrest h h'
          have := ih n' rest (by omega) (by omega)
          simp [this]
        | none =>
          simp only [List.length_cons] at h h'
          have := ih n' cs' (by omega) (by omega)
          simp [this]

/-- `re.sub` replacement body of `shift_formula_for_row_insert`: the row
number is shifted whenever it is `≥ start_row`; the `$` markers are copied
unchanged and are not consulted. -/
def replRowInsert (startRow delta : Int) (m : RefMatch) : List Char :=
  let rowNumber : Int := (m.row : Int)
  let rowNumber := if startRow ≤ rowNumber then rowNumber + delta else rowNumber
  (if m.colAbs then ['$'] else []) ++ m.col ++
    (if m.rowAbs then ['$'] else []) ++ intToChars rowNumber

/-- `shift_formula_for_row_insert(formula, start_row, delta)`. -/
def shift_formula_for_row_insert (formula : String) (startRow delta : Int) : String :=
  if formula = "" ∨ delta = 0 then formula
  else ⟨subRefs (replRowInsert startRow delta) formula.toList⟩

/-- `re.sub` replacement body of `shift_formula_for_row_copy`: the row number
is shifted exactly when the row marker `\$?` matched nothing (a relative row
reference). -/
def replRowCopy (delta : Int) (m : RefMatch) : List Char :=
  let rowNumber : Int := (m.row : Int)
  let rowNumber := if ¬ m.rowAbs then rowNumber + delta else rowNumber
  (if m.colAbs then ['$'] else []) ++ m.col ++
    (if m.rowAbs then ['$'] else []) ++ intToChars rowNumber

/-- `shift_formula_for_row_copy(formula, delta)`. -/
def shift_formula_for_row_copy (formula : String) (delta : Int) : String :=
  if formula = "" ∨ delta = 0 then formula
  else ⟨subRefs (replRowCopy delta) formula.toList⟩

/-- `FORMULA_CELL_REF_RE.fullmatch(part)`: the whole string is one match. -/
def fullmatchRef (cs : List Char) : Option RefMatch :=
  match matchRefAt cs with
  | some (m, []) => some m
  | _ => none

/-- `part.split(":", 1)` of Python: split at the first colon only. -/
def splitOnceColonGo (acc : List Char) : List Char → List (List Char)
  | [] => [acc.reverse]
  | c :: rest =>
    if c = ':' then [acc.reverse, rest] else splitOnceColonGo (c :: acc) rest

def splitOnceColon (cs : List Char) : List (List Char) :=
  splitOnceColonGo [] cs

/-- `shift_ref_rows(ref_text, start_row, delta)`: renumber the (at most two)
colon-separated endpoints of a range reference that fully match
`FORMULA_CELL_REF_RE` and whose row is `≥ start_row`; other endpoints are
kept verbatim. -/
def shift_ref_rows (refText : String) (startRow delta : Int) : String :=
  if refText = "" ∨ delta = 0 then refText
  else
    let parts := splitOnceColon refText.toList
    let adjusted := parts.map (fun part =>
      match fullmatchRef part with
      | none => part
      | some m =>
        let rowNumber : Int := (m.row : Int)
        let rowNumber := if startRow ≤ rowNumber then rowNumber + delta else rowNumber
        (if m.colAbs then ['$'] else []) ++ m.col ++
          (if m.rowAbs then ['$'] else []) ++ intToChars rowNumber)
    ⟨List.intercalate [':'] adjusted⟩

/-! ## Token view of a formula string

`parseFToks` cuts a formula string into literal characters and
`FORMULA_CELL_REF_RE` matches, with exactly the same scan as `subRefs`;
rendering the tokens restores the input (`renderFToks_parseFToks`).  The
token view lets the substitution theorems say "every matched reference" and
"every other character" precisely. -/

inductive FTok where
  | lit : Char → FTok
  | ref : RefMatch → FTok
deriving Repr, DecidableEq

def parseFToksFuel : Nat → List Char → List FTok
  | 0, _ => []
  | _ + 1, [] => []
  | fuel + 1, c :: cs =>
    match matchRefAt (c :: cs) with
    | some (m, rest) => .ref m :: parseFToksFuel fuel rest
    | none => .lit c :: parseFToksFuel fuel cs

def parseFToks (cs : List Char) : List FTok :=
  parseFToksFuel cs.length cs

def renderFToks (f : FTok → List Char) (ts : List FTok) : List Char :=
  (ts.map f).flatten

/-- `subRefs repl` is: parse into tokens, map `repl` over the matched
references (keeping literal characters), and concatenate. -/
theorem subRefsFuel_eq_tokens (repl : RefMatch → List Char) :
    ∀ fuel cs, cs.length ≤ fuel →
      subRefsFuel repl fuel cs =
        renderFToks (fun t => match t with
          | .lit c => [c]
          | .ref m => repl m) (parseFToksFuel fuel cs) := by
  intro fuel
  induction fuel with
  | zero =>
    intro cs h
    have : cs = [] := List.length_eq_zero.mp (Nat.le_zero.mp h)
    subst this
    simp [subRefsFuel, parseFToksFuel, renderFToks]
  | succ n ih =>
    intro cs h
    rcases cs with _ | ⟨c, cs'⟩
    · simp [subRefsFuel, parseFToksFuel, renderFToks]
    · simp only [subRefsFuel, parseFToksFuel]
      cases hm : matchRefAt (c :: cs') with
      | some pr =>
        rcases pr with ⟨m, rest⟩
        have hrest := matchRefAt_rest_lt hm
        simp only [List.length_cons] at hrest h
        dsimp only
        rw [ih rest (by omega)]
        simp [renderFToks]
      | none =>
        simp only [List.length_cons] at h
        dsimp only
        rw [ih cs' (by omega)]
        simp [renderFToks]

theorem subRefs_eq_tokens (repl : RefMatch → List Char) (cs : List Char) :
    subRefs repl cs =
      renderFToks (fun t => match t with
        | .lit c => [c]
        | .ref m => repl m) (parseFToks cs) :=
  subRefsFuel_eq_tokens repl cs.length cs (Nat.le_refl _)

/-! ## Cell addressing -/

/-- `CELL_REF_RE = re.compile(r"([A-Z]+)(\d+)")`; `parse_cell_ref` uses
`fullmatch` and raises `ValueError` (here: `none`) when the whole string is
not letters followed by digits. -/
def parse_cell_ref (s : String) : Option (String × Nat) :=
  let cs := s.toList
  let letters := cs.takeWhile isUpperAZ
  let rest := cs.dropWhile isUpperAZ
  let digits := rest.takeWhile isDigit09
  let rest2 := rest.dropWhile isDigit09
  if letters.length = 0 ∨ digits.length = 0 ∨ rest2 ≠ [] then none
  else some (⟨letters⟩, natOfDigits digits)

/-- `column_index(column)`: bijective base-26 value of a column-letter run. -/
def column_index (column : String) : Nat :=
  column.toList.foldl (fun value c => value * 26 + (c.toNat - 'A'.toNat + 1)) 0

/-! ## The worksheet element-tree model

Only the parts of the `xml.etree` trees that the engine reads or writes are
modelled.  A cell's `r` attribute is kept as the raw string (the source
parses it with `parse_cell_ref`, which can fail); a row's `r` attribute is
kept as an integer, since every source access round-trips it through
`int(...)`/`str(...)` (`attrib.get("r", "0")` defaults to 0).  The remaining
row attributes (`hidden`, heights, …) are an association list in document
order, mirroring the Python attribute dict.  `sheetData` is modelled as its
list of `row` children in document order. -/

structure Formula where
  text : Option String
  ref : Option String
deriving Repr, DecidableEq

structure Cell where
  r : Option String
  t : Option String
  s : Option String
  f : Option Formula
  v : Option String
  inlineStr : Option String
deriving Repr, DecidableEq

structure Row where
  r : Int
  attrs : List (String × String)
  cells : List Cell
deriving Repr, DecidableEq

structure MergeCell where
  ref : Option String
deriving Repr, DecidableEq

structure Sheet where
  sheetData : List Row
  mergeCells : Option (List MergeCell)
  dimensionRef : Option String
deriving Repr, DecidableEq

/-! ## `shift_rows_in_sheet` -/

/-- The per-cell body of the row loop of `shift_rows_in_sheet`: renumber the
cell's `r` address when its row is `≥ start_row`, rewrite a present nonempty
formula text with `shift_formula_for_row_insert` and a present nonempty
formula `ref` attribute with `shift_ref_rows`.  `parse_cell_ref` failure
(`ValueError`) aborts the whole operation. -/
def shiftCellForInsert (startRow delta : Int) (cell : Cell) : Option Cell := do
  let cell1 ←
    match cell.r with
    | some ref =>
      if ref = "" then pure cell
      else
        match parse_cell_ref ref with
        | none => none
        | some (col, cellRow) =>
          if startRow ≤ (cellRow : Int) then
            pure { cell with r := some (col ++ ⟨intToChars ((cellRow : Int) + delta)⟩) }
          else pure cell
    | none => pure cell
  let cell2 :=
    match cell1.f with
    | some fm =>
      let fm1 :=
        match fm.text with
        | some t =>
          if t ≠ "" then { fm with text := some (shift_formula_for_row_insert t startRow delta) }
          else fm
        | none => fm
      let fm2 :=
        match fm1.ref with
        | some rf =>
          if rf ≠ "" then { fm1 with ref := some (shift_ref_rows rf startRow delta) }
          else fm1
        | none => fm1
      { cell1 with f := some fm2 }
    | none => cell1
  pure cell2

def shiftRowForInsert (startRow delta : Int) (row : Row) : Option Row := do
  let r1 := if startRow ≤ row.r then row.r + delta else row.r
  let cells1 ← row.cells.mapM (shiftCellForInsert startRow delta)
  pure { row with r := r1, cells := cells1 }

/-- `shift_rows_in_sheet(sheet_root, start_row, delta)`.  The source
processes the rows in descending document order when `delta > 0`; since each
row is rewritten independently of the others and the tree order is not
changed, the result is the in-order map of the per-row rewrite. -/
def shift_rows_in_sheet (sheet : Sheet) (startRow delta : Int) : Option Sheet :=
  if delta = 0 then some sheet
  else do
    let rows1 ← sheet.sheetData.mapM (shiftRowForInsert startRow delta)
    let merges1 := sheet.mergeCells.map (List.map (fun mc =>
      { ref := mc.ref.map (fun rf =>
          if rf = "" then rf else shift_ref_rows rf startRow delta) : MergeCell }))
    let dim1 := sheet.dimensionRef.map (fun rf =>
      if rf = "" then rf else shift_ref_rows rf startRow delta)
    pure { sheetData := rows1, mergeCells := merges1, dimensionRef := dim1 }

/-! ## Row insertion and cloning -/

/-- `insert_row_in_order(sheet_data, row_elem)`: insert before the first row
whose number exceeds the new row's number, else append. -/
def insert_row_in_order (rows : List Row) (rowElem : Row) : List Row :=
  match rows with
  | [] => [rowElem]
  | rw :: rest =>
    if rowElem.r < rw.r then rowElem :: rw :: rest
    else rw :: insert_row_in_order rest rowElem

/-- `get_or_create_row(sheet_data, row_number)`: the existing row with this
number, or a fresh empty row inserted in sorted position.  Returns the row
together with the updated sheet data. -/
def get_or_create_row (rows : List Row) (rowNumber : Int) : Row × List Row :=
  match rows.find? (fun rw => rw.r = rowNumber) with
  | some rw => (rw, rows)
  | none =>
    let newRow : Row := { r := rowNumber, attrs := [], cells := [] }
    (newRow, insert_row_in_order rows newRow)

/-- The per-cell body of `clone_template_row`: retarget the cell address to
the target row; when the cell holds a formula with nonempty text, rewrite the
text with `shift_formula_for_row_copy` and pop the formula's fixed-range
`ref` attribute; when the cell holds a formula (any) and a cached value node,
remove the value node. -/
def cloneCellForCopy (targetRow delta : Int) (cell : Cell) : Option Cell := do
  let cell1 ←
    match cell.r with
    | some ref =>
      if ref = "" then pure cell
      else
        match parse_cell_ref ref with
        | none => none
        | some (col, _) => pure { cell with r := some (col ++ ⟨intToChars targetRow⟩) }
    | none => pure cell
  let cell2 :=
    match cell1.f with
    | some fm =>
      match fm.text with
      | some t =>
        if t ≠ "" then
          { cell1 with f := some { text := some (shift_formula_for_row_copy t delta), ref := none } }
        else cell1
      | none => cell1
    | none => cell1
  let cell3 :=
    match cell2.f, cell2.v with
    | some _, some _ => { cell2 with v := none }
    | _, _ => cell2
  pure cell3

/-- `clone_template_row(sheet_data, template_row, target_row)`: deep-copy the
template row, renumber it and its cells to `target_row`, apply row-copy
translation to its formulas, and insert the clone in sorted position. -/
def clone_template_row (rows : List Row) (templateRow : Row) (targetRow : Int) :
    Option (List Row) := do
  let sourceRow := templateRow.r
  let delta := targetRow - sourceRow
  let cells1 ← templateRow.cells.mapM (cloneCellForCopy targetRow delta)
  let rowClone : Row := { templateRow with r := targetRow, cells := cells1 }
  pure (insert_row_in_order rows rowClone)

/-! ## Exact rational arithmetic

Python `float` values are modelled as exact rationals.  (Mathlib's `Rat`
operations do not reduce in the kernel, so a small self-contained normalized
fraction type is used instead; every constructor below keeps the denominator
positive and the fraction reduced, making structural equality numeric
equality for all constructed values.) -/

structure Q where
  num : Int
  den : Int
deriving Repr, DecidableEq

/-- Normalized fraction `n / d` (positive reduced denominator); the `d = 0`
branch is never reached by the engine, which checks divisors first. -/
def Q.norm (n d : Int) : Q :=
  if d = 0 then ⟨0, 1⟩
  else
    let s : Int := if d < 0 then -1 else 1
    let n1 := s * n
    let d1 := s * d
    let g : Int := (n1.gcd d1 : Nat)
    if g = 0 then ⟨0, 1⟩ else ⟨Int.ediv n1 g, Int.ediv d1 g⟩

def Q.ofInt (n : Int) : Q := ⟨n, 1⟩

def Q.mkd (n d : Int) : Q := Q.norm n d

def Q.add (a b : Q) : Q := Q.norm (a.num * b.den + b.num * a.den) (a.den * b.den)

def Q.sub (a b : Q) : Q := Q.norm (a.num * b.den - b.num * a.den) (a.den * b.den)

def Q.mul (a b : Q) : Q := Q.norm (a.num * b.num) (a.den * b.den)

def Q.div (a b : Q) : Q := Q.norm (a.num * b.den) (a.den * b.num)

def Q.qabs (a : Q) : Q := ⟨|a.num|, a.den⟩

/-- `a < b` (valid for positive denominators). -/
def Q.ltb (a b : Q) : Bool := a.num * b.den < b.num * a.den

/-- `a ≤ b` (valid for positive denominators). -/
def Q.leb (a b : Q) : Bool := a.num * b.den ≤ b.num * a.den

/-- Numeric equality by cross-multiplication. -/
def Q.eqb (a b : Q) : Bool := a.num * b.den = b.num * a.den

def Q.isNeg (a : Q) : Bool := a.num < 0

/-- `⌊a⌋` (valid for positive denominators). -/
def Q.floor (a : Q) : Int := Int.fdiv a.num a.den

/-- The rational number a `Q` denotes; the semantic reference for the
comparison operators. -/
def Q.val (a : Q) : ℚ := (a.num : ℚ) / (a.den : ℚ)

/-! ## Canonical decimal formatting

`f"{value:.10f}"` becomes rendering with ten digits after the decimal point,
rounding half to even as the C `printf` machinery underlying Python's float
formatting does. -/

/-- `str.rstrip(c)`: drop the trailing run of the character `c`. -/
def rstripChar (c : Char) (cs : List Char) : List Char :=
  (cs.reverse.dropWhile (· = c)).reverse

def padLeftZeros (ds : List Char) (width : Nat) : List Char :=
  List.replicate (width - ds.length) '0' ++ ds

/-- `f"{value:.10f}"`: sign, integer digits, `'.'`, exactly ten fractional
digits (value rounded half-to-even at the tenth decimal). -/
def renderFixed10 (v : Q) : List Char :=
  let sign := if v.isNeg then ['-'] else []
  let x : Q := (v.qabs).mul (Q.ofInt (10 ^ 10))
  let n : Int := x.floor
  let frac : Q := x.sub (Q.ofInt n)
  let half : Q := Q.mkd 1 2
  let scaled : Int :=
    if frac.ltb half then n
    else if half.ltb frac then n + 1
    else if Int.emod n 2 = 0 then n else n + 1
  let ip := Int.ediv scaled (10 ^ 10)
  let fp := Int.emod scaled (10 ^ 10)
  sign ++ Nat.toDigits 10 ip.toNat ++ ['.'] ++ padLeftZeros (Nat.toDigits 10 fp.toNat) 10

/-- `format_decimal_for_excel(value)`: `"0"` for magnitudes below `1e-12`,
otherwise the `.10f` rendering with trailing zeros and then trailing decimal
points stripped, with `"0"` as the final fallback for an empty result. -/
def format_decimal_for_excel (value : Q) : String :=
  if (value.qabs).ltb (Q.mkd 1 (10 ^ 12)) then "0"
  else
    let text := rstripChar '.' (rstripChar '0' (renderFixed10 value))
    if text = [] then "0" else ⟨text⟩

/-- `str(...)` of a Python `int`, as a `String`. -/
def istr (i : Int) : String := ⟨intToChars i⟩

/-! ## Cell write helpers -/

/-- Replace the first list element satisfying `p` by `f` applied to it. -/
def replaceFirst {α : Type} (p : α → Bool) (f : α → α) : List α → List α
  | [] => []
  | x :: rest => if p x then f x :: rest else x :: replaceFirst p f rest

/-- `insert_cell_in_order(row_elem, new_cell, target_column)`: insert before
the first cell whose (parsed) column index exceeds the target column's index,
skipping cells whose `r` does not fullmatch `CELL_REF_RE`; else append. -/
def insert_cell_in_order_go (targetIdx : Nat) (newCell : Cell) : List Cell → List Cell
  | [] => [newCell]
  | c :: rest =>
    match parse_cell_ref (c.r.getD "") with
    | none => c :: insert_cell_in_order_go targetIdx newCell rest
    | some (col, _) =>
      if targetIdx < column_index col then newCell :: c :: rest
      else c :: insert_cell_in_order_go targetIdx newCell rest

def insert_cell_in_order (cells : List Cell) (newCell : Cell) (targetColumn : String) :
    List Cell :=
  insert_cell_in_order_go (column_index targetColumn) newCell cells

def emptyCell (targetRef : String) : Cell :=
  { r := some targetRef, t := none, s := none, f := none, v := none, inlineStr := none }

/-- `set_numeric_cell(row_elem, row_number, column, value, preserve_formula)`:
find or create the addressed cell; with `preserve_formula` set, leave a cell
that already holds a formula untouched; otherwise clear the type marker and
all value/formula/inline-string children and write the canonical decimal
text. -/
def set_numeric_cell (row : Row) (rowNumber : Int) (column : String) (value : Q)
    (preserveFormula : Bool := false) : Row :=
  let targetRef := column ++ istr rowNumber
  let write := fun (c : Cell) =>
    { c with t := none, f := none, inlineStr := none,
             v := some (format_decimal_for_excel value) }
  match row.cells.find? (fun c => c.r = some targetRef) with
  | some tc =>
    if preserveFormula ∧ tc.f.isSome then row
    else { row with cells := replaceFirst (fun c => c.r = some targetRef) write row.cells }
  | none =>
    { row with cells := insert_cell_in_order row.cells (write (emptyCell targetRef)) column }

/-- `set_inline_string_cell(row_elem, row_number, column, value)`. -/
def set_inline_string_cell (row : Row) (rowNumber : Int) (column : String) (value : String) :
    Row :=
  let targetRef := column ++ istr rowNumber
  let write := fun (c : Cell) =>
    { c with t := some "inlineStr", f := none, v := none, inlineStr := some value }
  match row.cells.find? (fun c => c.r = some targetRef) with
  | some _ =>
    { row with cells := replaceFirst (fun c => c.r = some targetRef) write row.cells }
  | none =>
    { row with cells := insert_cell_in_order row.cells (write (emptyCell targetRef)) column }

/-- Reflect an in-place mutation of the (first) row with the given number
back into the sheet-data list; rows the source does not touch are kept. -/
def updateRowByNumber (rows : List Row) (rowNumber : Int) (f : Row → Row) : List Row :=
  replaceFirst (fun rw => rw.r = rowNumber) f rows

/-- `set_formula_cell(sheet_data, row_number, column, formula, cell_type)`:
get or create the row, find or create the addressed cell, set or delete the
type marker, clear value/formula/inline-string children and append a fresh
formula node (with no `ref` attribute) holding the text. -/
def set_formula_cell (rows : List Row) (rowNumber : Int) (column : String) (formula : String)
    (cellType : Option String := none) : List Row :=
  let (rowElem, rows1) := get_or_create_row rows rowNumber
  let targetRef := column ++ istr rowNumber
  let tVal : Option String :=
    match cellType with
    | some ct => if ct ≠ "" then some ct else none
    | none => none
  let write := fun (c : Cell) =>
    { c with t := tVal, v := none, inlineStr := none,
             f := some { text := some formula, ref := none } }
  let rowElem1 :=
    match rowElem.cells.find? (fun c => c.r = some targetRef) with
    | some _ =>
      { rowElem with cells := replaceFirst (fun c => c.r = some targetRef) write rowElem.cells }
    | none =>
      { rowElem with cells := insert_cell_in_order rowElem.cells (write (emptyCell targetRef)) column }
  updateRowByNumber rows1 rowNumber (fun _ => rowElem1)

def set_formula_string_cell (rows : List Row) (rowNumber : Int) (column : String)
    (formula : String) : List Row :=
  set_formula_cell rows rowNumber column formula (some "str")

/-! ## Derived per-employee and per-section formulas -/

/-- `set_employee_row_formulas(sheet_data, row_number)`: the eight formula
cells written into every employee row. -/
def set_employee_row_formulas (rows : List Row) (rowNumber : Int) : List Row :=
  let rn := istr rowNumber
  let rows := set_formula_cell rows rowNumber "D" ("SUM(K" ++ rn ++ ":O" ++ rn ++ ")")
  let rows := set_formula_cell rows rowNumber "E"
    ("IF(D" ++ rn ++ ">40,(D" ++ rn ++ "-40)*(C" ++ rn ++ "*1.5)+(C" ++ rn ++ "*40),D" ++
      rn ++ "*C" ++ rn ++ ")")
  let rows := set_formula_cell rows rowNumber "F"
    ("IF(D" ++ rn ++ ">40,(D" ++ rn ++ "-40)*(C" ++ rn ++ "*0.5),0)")
  let rows := set_formula_cell rows rowNumber "G" ("SUM(H" ++ rn ++ ":J" ++ rn ++ ")")
  let rows := set_formula_cell rows rowNumber "L" ("IFERROR(K" ++ rn ++ "/Q" ++ rn ++ ",0)")
  let rows := set_formula_cell rows rowNumber "N" ("IFERROR(M" ++ rn ++ "/Q" ++ rn ++ ",0)")
  let rows := set_formula_cell rows rowNumber "P" ("IFERROR(O" ++ rn ++ "/Q" ++ rn ++ ",0)")
  let rows := set_formula_cell rows rowNumber "Q" ("K" ++ rn ++ "+M" ++ rn ++ "+O" ++ rn)
  rows

def COMPANY_BURDEN_MULTIPLIER : List (String × Q) :=
  [("scanio_moving", Q.mkd 118 100), ("scanio_storage", Q.mkd 124 100),
   ("sea_and_air_intl", Q.mkd 118 100), ("flat_price", Q.mkd 118 100)]

structure SectionRows where
  startRow : Int
  endRow : Int
  totalRow : Int
  amountRow : Int
deriving Repr, DecidableEq

/-- Python `min` of a nonempty list (raises on empty). -/
def listMin (l : List Int) : Option Int :=
  match l with
  | [] => none
  | x :: xs => some (xs.foldl min x)

def listMax (l : List Int) : Option Int :=
  match l with
  | [] => none
  | x :: xs => some (xs.foldl max x)

/-- `dict` assignment `d[k] = v` on an insertion-ordered association list. -/
def assocSet {α : Type} (k : String) (v : α) (l : List (String × α)) : List (String × α) :=
  if l.any (fun p => p.1 = k) then replaceFirst (fun p => p.1 = k) (fun _ => (k, v)) l
  else l ++ [(k, v)]

/-- The per-company body of `refresh_company_summary_formulas`: compute the
section's start/end/total/amount rows from the (possibly extended) slot list
and regenerate the section's total and derived-amount formulas.  An absent
burden multiplier is a `KeyError` (`none`). -/
def refreshCompanyStep (acc : List Row × List (String × SectionRows))
    (entry : String × List Int) : Option (List Row × List (String × SectionRows)) := do
  let (rows, secs) := acc
  let (company, slots) := entry
  if slots.isEmpty then pure acc
  else do
    let startRow ← listMin slots
    let endRow ← listMax slots
    let totalRow := endRow + 1
    let amountRow := endRow + 3
    let secs := assocSet company
      { startRow := startRow, endRow := endRow, totalRow := totalRow, amountRow := amountRow }
      secs
    let sr := istr startRow
    let er := istr endRow
    let tr := istr totalRow
    let ar := istr amountRow
    let rows := set_formula_cell rows totalRow "D" ("SUM(D" ++ sr ++ ":D" ++ er ++ ")")
    let rows := set_formula_cell rows totalRow "M" ("SUM(M" ++ sr ++ ":M" ++ er ++ ")")
    let rows := set_formula_cell rows totalRow "O" ("SUM(O" ++ sr ++ ":O" ++ er ++ ")")
    let rows := set_formula_cell rows totalRow "Q" ("SUM(Q" ++ sr ++ ":Q" ++ er ++ ")")
    let burden ← (COMPANY_BURDEN_MULTIPLIER.find? (fun p => p.1 = company)).map Prod.snd
    let burdenText := format_decimal_for_excel burden
    let rows := set_formula_cell rows amountRow "E" ("E" ++ tr ++ "+G" ++ tr)
    let rows := set_formula_cell rows amountRow "G"
      ("SUM(H" ++ ar ++ ":J" ++ ar ++ ")/" ++ burdenText)
    let rows := set_formula_cell rows amountRow "H" ("H" ++ tr ++ "*" ++ burdenText)
    let rows :=
      if company = "scanio_moving" then
        let rows := set_formula_cell rows totalRow "L" ("K" ++ tr ++ "/Q" ++ tr)
        let rows := set_formula_cell rows totalRow "N" ("M" ++ tr ++ "/Q" ++ tr)
        let rows := set_formula_cell rows totalRow "P" ("O" ++ tr ++ "/D" ++ tr)
        let rows := set_formula_cell rows amountRow "K"
          ("E" ++ tr ++ "*L" ++ tr ++ "*" ++ burdenText)
        let rows := set_formula_cell rows amountRow "M"
          ("E" ++ tr ++ "*N" ++ tr ++ "*" ++ burdenText)
        let rows := set_formula_cell rows amountRow "O"
          ("E" ++ tr ++ "*P" ++ tr ++ "*" ++ burdenText)
        rows
      else
        let rows := set_formula_cell rows amountRow "K"
          ("SUMPRODUCT(E" ++ sr ++ ":E" ++ er ++ ",L" ++ sr ++ ":L" ++ er ++ ")*" ++ burdenText)
        let rows := set_formula_cell rows amountRow "M"
          ("SUMPRODUCT(E" ++ sr ++ ":E" ++ er ++ ",N" ++ sr ++ ":N" ++ er ++ ")*" ++ burdenText)
        let rows := set_formula_cell rows amountRow "O"
          ("SUMPRODUCT(E" ++ sr ++ ":E" ++ er ++ ",P" ++ sr ++ ":P" ++ er ++ ")*" ++ burdenText)
        rows
    let rows := set_formula_cell rows amountRow "Q"
      ("(K" ++ ar ++ "+M" ++ ar ++ "+O" ++ ar ++ ")/" ++ burdenText)
    let rows := set_formula_cell rows (amountRow + 1) "E" ("G" ++ ar ++ "+Q" ++ ar)
    pure (rows, secs)

/-- `refresh_company_summary_formulas(sheet_data, company_slots)`: regenerate
every section's formulas, then the cross-company overtime, net-due and
reimbursement formulas; returns the reimbursement row.  Missing section
entries for any of the four companies are a `KeyError` (`none`). -/
def refresh_company_summary_formulas (rows : List Row)
    (companySlots : List (String × List Int)) : Option (List Row × Int) := do
  let (rows, secs) ← companySlots.foldlM refreshCompanyStep (rows, ([] : List (String × SectionRows)))
  let scanioTotals ← (secs.find? (fun p => p.1 = "scanio_moving")).map Prod.snd
  let storageTotals ← (secs.find? (fun p => p.1 = "scanio_storage")).map Prod.snd
  let seaTotals ← (secs.find? (fun p => p.1 = "sea_and_air_intl")).map Prod.snd
  let flatTotals ← (secs.find? (fun p => p.1 = "flat_price")).map Prod.snd
  let overtimeRow := flatTotals.totalRow + 5
  let dueRow := flatTotals.totalRow + 7
  let reimbursementRow := flatTotals.totalRow + 15
  let rows := set_formula_cell rows overtimeRow "F"
    ("F" ++ istr scanioTotals.totalRow ++ "+F" ++ istr storageTotals.totalRow ++
      "+F" ++ istr seaTotals.totalRow ++ "+F" ++ istr flatTotals.totalRow)
  let rows := set_formula_cell rows dueRow "C"
    ("K" ++ istr seaTotals.amountRow ++ "+H" ++ istr seaTotals.amountRow ++
      "-M" ++ istr scanioTotals.amountRow ++ "-I" ++ istr scanioTotals.amountRow ++
      "-M" ++ istr storageTotals.amountRow ++ "-I" ++ istr storageTotals.amountRow)
  let rows := set_formula_cell rows dueRow "Q"
    ("Q" ++ istr flatTotals.totalRow ++ "+Q" ++ istr seaTotals.totalRow ++
      "+Q" ++ istr storageTotals.totalRow ++ "+Q" ++ istr scanioTotals.totalRow)
  let rows := set_formula_cell rows reimbursementRow "F"
    ("G" ++ istr flatTotals.amountRow ++ "+G" ++ istr seaTotals.amountRow ++
      "+G" ++ istr storageTotals.amountRow ++ "+G" ++ istr scanioTotals.amountRow)
  pure (rows, reimbursementRow)

/-! ## Name normalization

`normalize_name` uses `unicodedata.normalize("NFKD", ...)` before the ASCII
projection; the NFKD decomposition table is outside the repository, so it is
a parameter `nfkd` (the identity on ASCII characters). -/

/-- Whitespace tokenization: Python `str.split()` — split on whitespace runs,
no empty tokens. -/
def wsTokensGo (acc : List Char) : List Char → List (List Char)
  | [] => if acc.isEmpty then [] else [acc.reverse]
  | c :: rest =>
    if c.isWhitespace then
      if acc.isEmpty then wsTokensGo [] rest else acc.reverse :: wsTokensGo [] rest
    else wsTokensGo (c :: acc) rest

def wsTokens (cs : List Char) : List (List Char) := wsTokensGo [] cs

/-- `normalize_spaces(value)`: collapse interior whitespace to single spaces
and strip the ends. -/
def normalize_spaces (value : String) : String :=
  String.intercalate " " ((wsTokens value.toList).map (fun t => (⟨t⟩ : String)))

def isLowerAlnumSpace (c : Char) : Bool :=
  ('a' ≤ c && c ≤ 'z') || ('0' ≤ c && c ≤ '9') || c = ' '

/-- `normalize_name(name)`: NFKD-decompose, drop non-ASCII, lowercase,
replace characters outside `[a-z0-9 ]` by spaces (the source replaces each
maximal run by one space via `re.sub(r"[^a-z0-9 ]+", " ", ...)`, which is
equivalent under the following whitespace tokenization), and join the tokens
with single spaces. -/
def normalize_name (nfkd : Char → List Char) (name : String) : String :=
  let decomposed := name.toList.flatMap nfkd
  let ascii := decomposed.filter (fun c => c.toNat < 128)
  let lowered := ascii.map Char.toLower
  let replaced := lowered.map (fun c => if isLowerAlnumSpace c then c else ' ')
  String.intercalate " " ((wsTokens replaced).map (fun t => (⟨t⟩ : String)))

/-- `name_first_last(normalized_name)`. -/
def name_first_last (normalizedName : String) : String × String :=
  match wsTokens normalizedName.toList with
  | [] => ("", "")
  | t :: ts => ((⟨t⟩ : String), (⟨(t :: ts).getLast (by simp)⟩ : String))

/-! ## Roster placement and overflow handling -/

structure RosterEntry where
  name : String
  home_company : String
  rate : Q
deriving Repr, DecidableEq

structure EmployeeRowRef where
  row_number : Int
  workbook_name : String
  home_company : String
deriving Repr, DecidableEq

def COMPANY_ROW_SLOTS : List (String × List Int) :=
  [("scanio_moving", (List.range 21).map (fun i => (5 + i : Int))),
   ("scanio_storage", (List.range 7).map (fun i => (33 + i : Int))),
   ("sea_and_air_intl", (List.range 10).map (fun i => (47 + i : Int))),
   ("flat_price", (List.range 22).map (fun i => (64 + i : Int)))]

/-- `map_row_with_insertions(original_row, insertions)`. -/
def map_row_with_insertions (originalRow : Int) (insertions : List (Int × Int)) : Int :=
  insertions.foldl (fun mapped sd => if sd.1 ≤ mapped then mapped + sd.2 else mapped) originalRow

/-- The grouping of roster entries by home company, each group sorted stably
by normalized name (`grouped[company].sort(key=...)`). -/
def groupedEntries (nfkd : Char → List Char) (entries : List RosterEntry) (company : String) :
    List RosterEntry :=
  (entries.filter (fun e => e.home_company = company)).mergeSort
    (fun a b => decide (normalize_name nfkd a.name ≤ normalize_name nfkd b.name))

/-- One iteration of the overflow loop of `build_employee_rows_from_roster`:
map the template slots through the insertions so far; when the company's
entry count exceeds the slot count, ensure the last slot row exists, shift
everything after it down by the overflow, clone the last slot row into each
new row, record the insertion and extend the slot list. -/
def processCompanySlots (groupLen : String → Nat)
    (st : Sheet × List (Int × Int) × List (String × List Int))
    (entry : String × List Int) :
    Option (Sheet × List (Int × Int) × List (String × List Int)) := do
  let (sheet, insertions, companySlots) := st
  let (company, baseSlots) := entry
  let slots := baseSlots.map (fun r => map_row_with_insertions r insertions)
  let overflow : Int := (groupLen company : Int) - (slots.length : Int)
  if 0 < overflow then do
    let lastSlot ← slots.getLast?
    let insertAt := lastSlot + 1
    let (_, rows1) := get_or_create_row sheet.sheetData lastSlot
    let sheet1 ← shift_rows_in_sheet { sheet with sheetData := rows1 } insertAt overflow
    let templateRow ← sheet1.sheetData.find? (fun rw => rw.r = lastSlot)
    let rows2 ← (List.range overflow.toNat).foldlM
      (fun rows (idx : Nat) => clone_template_row rows templateRow (insertAt + (idx : Int)))
      sheet1.sheetData
    let insertions1 := insertions ++ [(insertAt, overflow)]
    let slots1 := slots ++ (List.range overflow.toNat).map
      (fun (idx : Nat) => insertAt + (idx : Int))
    pure ({ sheet1 with sheetData := rows2 }, insertions1, companySlots ++ [(company, slots1)])
  else
    pure (sheet, insertions, companySlots ++ [(company, slots)])

def fill_columns : List String := ["H", "I", "J", "K", "M", "O"]

/-- The body of the placement loop of `build_employee_rows_from_roster` for
one slot: blank the `A` cell, write the employee formulas, then either place
the roster entry's name and rate (recording the employee row) or blank the
row with zero hours and a `G` default that preserves a template formula. -/
def placeEmployeeSlot (company : String) (companyEntries : List RosterEntry)
    (st : List Row × List EmployeeRowRef) (p : Nat × Int) :
    List Row × List EmployeeRowRef :=
  let (rows, refsAcc) := st
  let (idx, rowNumber) := p
  let (rowElem, rows) := get_or_create_row rows rowNumber
  let rows := updateRowByNumber rows rowNumber
    (fun _ => set_inline_string_cell rowElem rowNumber "A" "")
  let rows := set_employee_row_formulas rows rowNumber
  match companyEntries[idx]? with
  | some entry =>
    let rows := updateRowByNumber rows rowNumber (fun rw =>
      let rw := set_inline_string_cell rw rowNumber "B" entry.name
      set_numeric_cell rw rowNumber "C" entry.rate)
    (rows, refsAcc ++
      [{ row_number := rowNumber, workbook_name := entry.name, home_company := company }])
  | none =>
    let rows := updateRowByNumber rows rowNumber (fun rw =>
      let rw := set_inline_string_cell rw rowNumber "B" ""
      let rw := set_numeric_cell rw rowNumber "C" (Q.ofInt 0)
      let rw := fill_columns.foldl (fun rw col => set_numeric_cell rw rowNumber col (Q.ofInt 0)) rw
      set_numeric_cell rw rowNumber "G" (Q.ofInt 0) true)
    (rows, refsAcc)

/-- `build_employee_rows_from_roster(sheet_root, sheet_data, roster_entries)`:
overflow phase over `COMPANY_ROW_SLOTS`, then the summary-formula refresh on
the extended slot lists, then the per-slot placement. -/
def build_employee_rows_from_roster (nfkd : Char → List Char) (sheet : Sheet)
    (rosterEntries : List RosterEntry) :
    Option (List EmployeeRowRef × Int × Sheet) := do
  let grouped := fun c => groupedEntries nfkd rosterEntries c
  let groupLen := fun c => (grouped c).length
  let (sheet1, _, companySlots) ← COMPANY_ROW_SLOTS.foldlM (processCompanySlots groupLen)
    (sheet, ([] : List (Int × Int)), ([] : List (String × List Int)))
  let (rows1, reimbursementRow) ← refresh_company_summary_formulas sheet1.sheetData companySlots
  let (rows2, employeeRows) := companySlots.foldl
    (fun acc cs => (cs.2.enum.foldl (placeEmployeeSlot cs.1 (grouped cs.1)) acc))
    (rows1, ([] : List EmployeeRowRef))
  pure (employeeRows, reimbursementRow, { sheet1 with sheetData := rows2 })

/-! ## Row visibility -/

/-- `ensure_all_rows_visible(sheet_xml)`: pop the `hidden` attribute from
every row of `sheetData`, leaving every other attribute and the cells
untouched. -/
def ensure_all_rows_visible (sheet : Sheet) : Sheet :=
  { sheet with sheetData := sheet.sheetData.map (fun rw =>
      { rw with attrs := rw.attrs.eraseP (fun p => p.1 = "hidden") }) }

/-! ## Document reassembly: the splice patterns

`SHEET_DATA_XML_RE = <(?:\w+:)?sheetData\b[^>]*>.*?</(?:\w+:)?sheetData>`
(DOTALL) and
`CALC_PR_XML_RE = <(?:\w+:)?calcPr\b[^>]*(?:/>|>.*?</(?:\w+:)?calcPr>)`.

The matchers below reproduce the `re` engine's backtracking on these
patterns: the optional namespace prefix is tried first with the full
continuation and then without; the greedy `[^>]*` consumes up to the next
`>`, giving back one final `/` only for the self-closing alternative of the
`calcPr` pattern; the lazy `.*?` stops at the first matching close tag.
(`\w` is modelled as ASCII word characters.) -/

def isWordChar (c : Char) : Bool :=
  ('a' ≤ c && c ≤ 'z') || ('A' ≤ c && c ≤ 'Z') || ('0' ≤ c && c ≤ '9') || c = '_'

/-- `(?:\w+:)` at the head: a nonempty word run followed by a colon. -/
def matchPrefixColon (cs : List Char) : Option (List Char) :=
  let run := cs.takeWhile isWordChar
  let rest := cs.dropWhile isWordChar
  if run.isEmpty then none
  else
    match rest with
    | ':' :: rest2 => some rest2
    | _ => none

def stripLit (pre cs : List Char) : Option (List Char) :=
  if pre.isPrefixOf cs then some (cs.drop pre.length) else none

/-- The element name followed by a word boundary (`name\b`). -/
def afterNameIfBoundary (nm cs1 : List Char) : Option (List Char) :=
  match stripLit nm cs1 with
  | some rest =>
    match rest with
    | c :: _ => if isWordChar c then none else some rest
    | [] => some rest
  | none => none

/-- Continuation points after `(?:\w+:)?name\b`, prefixed alternative
first. -/
def qnameCandidates (nm cs : List Char) : List (List Char) :=
  let pre :=
    match matchPrefixColon cs with
    | some afterPre =>
      match afterNameIfBoundary nm afterPre with
      | some r => [r]
      | none => []
    | none => []
  let unpre :=
    match afterNameIfBoundary nm cs with
    | some r => [r]
    | none => []
  pre ++ unpre

/-- `</(?:\w+:)?name>` at the head. -/
def matchCloseTagAt (nm : List Char) (cs : List Char) : Option (List Char) :=
  match cs with
  | '<' :: '/' :: rest =>
    let tryNm := fun (cs1 : List Char) =>
      match stripLit nm cs1 with
      | some ('>' :: r) => some r
      | _ => none
    let viaPre :=
      match matchPrefixColon rest with
      | some afterPre => tryNm afterPre
      | none => none
    viaPre.orElse (fun _ => tryNm rest)
  | _ => none

/-- The lazy `.*?` scan: the first position (earliest) where the close tag
matches; fuel bounds the scan by the input length. -/
def scanToCloseFuel (nm : List Char) : Nat → List Char → Option (List Char)
  | 0, cs => matchCloseTagAt nm cs
  | fuel + 1, cs =>
    match matchCloseTagAt nm cs with
    | some rest => some rest
    | none =>
      match cs with
      | [] => none
      | _ :: cs1 => scanToCloseFuel nm fuel cs1

/-- A full element match at the head: `<`, optional prefix, name, `\b`,
`[^>]*`, then either `>` body and a close tag, or (for the `calcPr` pattern
only) a self-closing `/>`.  Returns the rest after the match. -/
def matchElemAt (nm : List Char) (selfClosing : Bool) (cs : List Char) : Option (List Char) :=
  match cs with
  | '<' :: rest =>
    (qnameCandidates nm rest).findSome? fun afterName =>
      let attrs := afterName.takeWhile (fun c => c ≠ '>')
      let afterAttrs := afterName.dropWhile (fun c => c ≠ '>')
      match afterAttrs with
      | '>' :: body =>
        match scanToCloseFuel nm body.length body with
        | some rest2 => some rest2
        | none => if selfClosing && attrs.getLast? = some '/' then some body else none
      | _ => none
  | _ => none

/-- `pattern.subn(repl, text, count=1)`: replace the leftmost match, if any.
`none` means zero replacements. -/
def subnOnceFuel (matchAt : List Char → Option (List Char)) (repl : List Char) :
    Nat → List Char → Option (List Char)
  | 0, cs =>
    match matchAt cs with
    | some rest => some (repl ++ rest)
    | none => none
  | fuel + 1, cs =>
    match matchAt cs with
    | some rest => some (repl ++ rest)
    | none =>
      match cs with
      | [] => none
      | c :: cs1 => (subnOnceFuel matchAt repl fuel cs1).map (fun r => c :: r)

/-- `merge_sheet_data_into_original_xml(original, sheet_data)`: replace the
`sheetData` block of the original worksheet text by the re-serialized
fragment; zero replacements raise `ValueError` (`none`). -/
def merge_sheet_data_into_original_xml (originalSheetXml sheetDataXml : String) :
    Option String :=
  (subnOnceFuel (matchElemAt "sheetData".toList false) sheetDataXml.toList
      originalSheetXml.toList.length originalSheetXml.toList).map
    (fun merged => (⟨merged⟩ : String))

/-- `merge_calc_pr_into_original_workbook_xml(original, workbook_root)`:
`calcXml` is the serialized `calcPr` fragment of the in-memory tree when one
exists.  A missing fragment or zero pattern replacements fall back to the
original text unchanged — this merge never fails. -/
def merge_calc_pr_into_original_workbook_xml (originalWorkbookXml : String)
    (calcXml : Option String) : String :=
  match calcXml with
  | none => originalWorkbookXml
  | some cx =>
    match subnOnceFuel (matchElemAt "calcPr".toList true) cx.toList
        originalWorkbookXml.toList.length originalWorkbookXml.toList with
    | some merged => (⟨merged⟩ : String)
    | none => originalWorkbookXml

/-! ## Output repackaging -/

def CALC_CHAIN_REL_TYPE : String :=
  "http://schemas.openxmlformats.org/officeDocument/2006/relationships/calcChain"

/-- The namespaced tag `{NS_REL}Relationship` compared against by
`remove_calc_chain_relationship`. -/
def REL_TAG : String :=
  "\x7bhttp://schemas.openxmlformats.org/package/2006/relationships\x7dRelationship"

structure RelElem where
  tag : String
  attrs : List (String × String)
deriving Repr, DecidableEq

def isCalcChainRel (e : RelElem) : Bool :=
  e.tag = REL_TAG &&
    (e.attrs.find? (fun p => p.1 = "Type")).map Prod.snd = some CALC_CHAIN_REL_TYPE

/-- `remove_calc_chain_relationship(workbook_rels_bytes)`, on the parsed
relationship list: drop every `Relationship` element whose `Type` is the
calc-chain type; report whether any was dropped. -/
def remove_calc_chain_relationship (rels : List RelElem) : List RelElem × Bool :=
  (rels.filter (fun e => ¬ isCalcChainRel e), rels.any isCalcChainRel)

def workbook_rels_path : String := "xl/_rels/workbook.xml.rels"

/-- Body of the output-archive loop of `fill_workbook`: `none` skips the
part, otherwise the (possibly substituted) part is written. -/
def repackF (sheet1Bytes workbookBytes : String) (updatedRelsBytes : Option String)
    (removeCalcChainPart : Bool) (it : String × String) : Option (String × String) :=
  if removeCalcChainPart ∧ it.1 = "xl/calcChain.xml" then none
  else if it.1 = "xl/worksheets/sheet1.xml" then some (it.1, sheet1Bytes)
  else if it.1 = "xl/workbook.xml" then some (it.1, workbookBytes)
  else if updatedRelsBytes.isSome ∧ it.1 = workbook_rels_path then
    some (it.1, updatedRelsBytes.getD it.2)
  else some it

/-- The pre-loop computation of `fill_workbook`: the replacement bytes for
the relationships part (if any) and the calc-chain removal flag.  A `none`
relationships part keeps the flag off; a parse failure aborts. -/
def updated_rels_and_flag (relsBytes : Option String)
    (parseRels : String → Option (List RelElem))
    (serializeRels : List RelElem → String) : Option (Option String × Bool) :=
  match relsBytes with
  | none => some ((none : Option String), false)
  | some rb =>
    match parseRels rb with
    | none => none
    | some rels =>
      let result := remove_calc_chain_relationship rels
      if result.2 then some (some (serializeRels result.1), true)
      else some (some rb, false)

/-- The output-archive loop of `fill_workbook` (its last stage): compute the
updated relationships part and the calc-chain removal flag, then copy every
input part, substituting the worksheet, workbook and relationships parts and
skipping `xl/calcChain.xml` when the flag is set.  `parseRels` and
`serializeRels` stand for `ET.fromstring`/`ET.tostring` on the relationships
part (XML machinery outside the engine); a parse failure aborts. -/
def fill_workbook_repackage (zinItems : List (String × String))
    (sheet1Bytes workbookBytes : String)
    (parseRels : String → Option (List RelElem))
    (serializeRels : List RelElem → String) : Option (List (String × String)) := do
  let updatedAndFlag ← updated_rels_and_flag
      ((zinItems.find? (fun it => it.1 = workbook_rels_path)).map Prod.snd)
      parseRels serializeRels
  let (updatedRelsBytes, removeCalcChainPart) := updatedAndFlag
  pure (zinItems.filterMap
    (repackF sheet1Bytes workbookBytes updatedRelsBytes removeCalcChainPart))

/-- Whether the repackage stage ends up skipping `xl/calcChain.xml`: the
relationships part must be present, parse, and contain a calc-chain
relationship. -/
def calcChainRemoved (zinItems : List (String × String))
    (parseRels : String → Option (List RelElem)) : Bool :=
  match (zinItems.find? (fun it => it.1 = workbook_rels_path)).map Prod.snd with
  | none => false
  | some rb =>
    match parseRels rb with
    | none => false
    | some rels => rels.any isCalcChainRel

/-! ## Identity resolution: `match_names`

`difflib.SequenceMatcher(None, a, b).ratio()` is standard-library code
outside the repository; it enters as the parameter `ratio`, and the Python
float scores and thresholds are modelled as exact rationals. -/

/-- The fuzzy-pass scoring loop: similarity ratio plus `+0.08` for an exact
last-token match and `+0.05` for an exact first-token match, over the
not-yet-claimed candidates in input order. -/
def fuzzyScored (ratio : String → String → Q) (nfkd : Char → List Char)
    (workbookNames : List String) (used : List String) (normalizedSource : String) :
    List (Q × String) :=
  let sourceTokens := wsTokens normalizedSource.toList
  let sourceLast : String := match sourceTokens.getLast? with
    | some t => (⟨t⟩ : String)
    | none => ""
  let sourceFirst : String := match sourceTokens.head? with
    | some t => (⟨t⟩ : String)
    | none => ""
  (workbookNames.filter (fun w => ¬ used.contains w)).map (fun workbookName =>
    let normalizedWorkbook := normalize_name nfkd workbookName
    let workbookTokens := wsTokens normalizedWorkbook.toList
    let workbookFirst : String := match workbookTokens.head? with
      | some t => (⟨t⟩ : String)
      | none => ""
    let workbookLast : String := match workbookTokens.getLast? with
      | some t => (⟨t⟩ : String)
      | none => ""
    let score := ratio normalizedSource normalizedWorkbook
    let score := if sourceLast ≠ "" ∧ sourceLast = workbookLast then score.add (Q.mkd 8 100) else score
    let score := if sourceFirst ≠ "" ∧ sourceFirst = workbookFirst then score.add (Q.mkd 5 100) else score
    (score, workbookName))

/-- `scored.sort(reverse=True)`: stable descending sort by the
(score, name) pair. -/
def sortScoredDesc (scored : List (Q × String)) : List (Q × String) :=
  scored.mergeSort (fun a b =>
    Q.ltb b.1 a.1 || (Q.eqb b.1 a.1 && decide (b.2 < a.2 ∨ b.2 = a.2)))

/-- The semantic (value-level) version of the descending `(score, name)`
order used by the scored sort; a total and transitive comparison that agrees
with the cross-multiplication one on positive denominators. -/
def scoreNameLe (a b : Q × String) : Bool :=
  decide (b.1.val < a.1.val ∨ (b.1.val = a.1.val ∧ (b.2 < a.2 ∨ b.2 = a.2)))

/-- The per-query candidate choice of `match_names`: exact pass, then
first/last-token pass, then the dual-gated fuzzy pass. -/
def chooseCandidate (ratio : String → String → Q) (nfkd : Char → List Char)
    (workbookNames : List String) (used : List String) (sourceName : String) :
    Option String :=
  let normalizedSource := normalize_name nfkd sourceName
  let exactMatches := (workbookNames.filter
    (fun w => normalize_name nfkd w = normalizedSource)).filter
    (fun c => ¬ used.contains c)
  if exactMatches.length = 1 then exactMatches.head?
  else
    let sourceKey := name_first_last normalizedSource
    let firstLastMatches := (workbookNames.filter
      (fun w => name_first_last (normalize_name nfkd w) = sourceKey)).filter
      (fun c => ¬ used.contains c)
    if firstLastMatches.length = 1 then firstLastMatches.head?
    else
      let scored := sortScoredDesc (fuzzyScored ratio nfkd workbookNames used normalizedSource)
      match scored with
      | [] => none
      | (bestScore, bestName) :: rest =>
        let secondScore : Q := match rest with
          | [] => Q.ofInt 0
          | (s2, _) :: _ => s2
        if (Q.mkd 78 100).leb bestScore ∧ (Q.mkd 3 100).leb (bestScore.sub secondScore) then
          some bestName
        else none

/-- The per-query body of the `match_names` loop: a chosen candidate is
claimed into the used set and recorded in the mapping, otherwise the query
joins the unmatched list. -/
def matchStep (ratio : String → String → Q) (nfkd : Char → List Char)
    (workbookNames : List String)
    (st : List String × List (String × String) × List String)
    (sourceName : String) : List String × List (String × String) × List String :=
  let (used, mp, unmatched) := st
  match chooseCandidate ratio nfkd workbookNames used sourceName with
  | none => (used, mp, unmatched ++ [sourceName])
  | some chosen => (used ++ [chosen], assocSet sourceName chosen mp, unmatched)

/-- `match_names(workbook_names, source_names)`: fold over the queries in
input order, claiming each chosen candidate into the used set; the mapping
is the insertion-ordered dict `source_to_workbook`, and queries with no
chosen candidate are appended to `unmatched_sources`. -/
def match_names (ratio : String → String → Q) (nfkd : Char → List Char)
    (workbookNames sourceNames : List String) :
    List (String × String) × List String :=
  let final := sourceNames.foldl (matchStep ratio nfkd workbookNames)
    (([] : List String), ([] : List (String × String)), ([] : List String))
  (final.2.1, final.2.2)

/-! ## A small evaluator for the written employee-row formulas

The engine writes formula *strings*; to settle claims about what those
formulas compute, the strings are parsed into a small expression language
covering exactly the constructs they use (numbers, cell references, `+ - * /
>`, parentheses, `SUM` over a rectangular range, `IF`, `IFERROR`) and
evaluated over an environment of cell values.  Division by zero is the Excel
error value, which `IFERROR` catches. -/

inductive XVal where
  | num : Q → XVal
  | boolV : Bool → XVal
  | err : XVal
deriving Repr, DecidableEq

inductive XExpr where
  | num : Q → XExpr
  | cellRef : String → Int → XExpr
  | binop : Char → XExpr → XExpr → XExpr
  | sumRange : String → Int → String → Int → XExpr
  | ifE : XExpr → XExpr → XExpr → XExpr
  | iferror : XExpr → XExpr → XExpr
deriving Repr, DecidableEq

/-- Cell environments are indexed by column *index* and row number. -/
def XEnv : Type := Nat → Int → XVal

def evalX (env : XEnv) : XExpr → XVal
  | .num q => .num q
  | .cellRef c r => env (column_index c) r
  | .binop op a b =>
    match evalX env a, evalX env b with
    | .num x, .num y =>
      match op with
      | '+' => .num (x.add y)
      | '-' => .num (x.sub y)
      | '*' => .num (x.mul y)
      | '/' => if y.num = 0 then .err else .num (x.div y)
      | '>' => .boolV (y.ltb x)
      | _ => .err
    | _, _ => .err
  | .sumRange c1 r1 c2 r2 =>
    let cols := (List.range (column_index c2 + 1 - column_index c1)).map
      (fun i => column_index c1 + i)
    let rows := (List.range ((r2 - r1).toNat + 1)).map (fun i => r1 + (i : Int))
    (cols.flatMap (fun c => rows.map (fun r => env c r))).foldl
      (fun acc v =>
        match acc, v with
        | .num s, .num x => .num (s.add x)
        | .err, _ => .err
        | _, .err => .err
        | a, _ => a)
      (.num (Q.ofInt 0))
  | .ifE c a b =>
    match evalX env c with
    | .boolV true => evalX env a
    | .boolV false => evalX env b
    | .num x => if x.num ≠ 0 then evalX env a else evalX env b
    | .err => .err
  | .iferror a b =>
    match evalX env a with
    | .err => evalX env b
    | v => v

/-- Parse an unsigned decimal literal (digits, optional point, digits). -/
def parseNumLit (cs : List Char) : Option (Q × List Char) :=
  let ds := cs.takeWhile isDigit09
  let rest := cs.dropWhile isDigit09
  if ds.isEmpty then none
  else
    match rest with
    | '.' :: rest1 =>
      let fs := rest1.takeWhile isDigit09
      let rest2 := rest1.dropWhile isDigit09
      if fs.isEmpty then none
      else some ((Q.ofInt (natOfDigits ds)).add (Q.mkd (natOfDigits fs) (10 ^ fs.length)), rest2)
    | _ => some (Q.ofInt (natOfDigits ds), rest)

/-- A column-and-row cell reference: letters then digits. -/
def parseColRow (cs : List Char) : Option ((String × Int) × List Char) :=
  let ls := cs.takeWhile isUpperAZ
  let rest := cs.dropWhile isUpperAZ
  let ds := rest.takeWhile isDigit09
  let rest2 := rest.dropWhile isDigit09
  if ls.isEmpty ∨ ds.isEmpty then none
  else some (((⟨ls⟩ : String), (natOfDigits ds : Int)), rest2)

mutual

def parseAtom : Nat → List Char → Option (XExpr × List Char)
  | 0, _ => none
  | fuel + 1, cs =>
    match cs with
    | '(' :: rest =>
      match parseCmp fuel rest with
      | some (e, ')' :: rest1) => some (e, rest1)
      | _ => none
    | c :: _ =>
      if isDigit09 c then
        (parseNumLit cs).map (fun (q, r) => (XExpr.num q, r))
      else if isUpperAZ c then
        let ls := cs.takeWhile isUpperAZ
        let rest := cs.dropWhile isUpperAZ
        match rest with
        | '(' :: rest1 =>
          if ls = "SUM".toList then
            match parseColRow rest1 with
            | some ((c1, r1), ':' :: rest2) =>
              match parseColRow rest2 with
              | some ((c2, r2), ')' :: rest3) =>
                some (XExpr.sumRange c1 r1 c2 r2, rest3)
              | _ => none
            | _ => none
          else if ls = "IF".toList then
            match parseCmp fuel rest1 with
            | some (a, ',' :: restA) =>
              match parseCmp fuel restA with
              | some (b, ',' :: restB) =>
                match parseCmp fuel restB with
                | some (c3, ')' :: restC) => some (XExpr.ifE a b c3, restC)
                | _ => none
              | _ => none
            | _ => none
          else if ls = "IFERROR".toList then
            match parseCmp fuel rest1 with
            | some (a, ',' :: restA) =>
              match parseCmp fuel restA with
              | some (b, ')' :: restB) => some (XExpr.iferror a b, restB)
              | _ => none
            | _ => none
          else none
        | _ =>
          (parseColRow cs).map (fun ((col, row), r) => (XExpr.cellRef col row, r))
      else none
    | [] => none

def parseMulTail : Nat → XExpr → List Char → Option (XExpr × List Char)
  | 0, _, _ => none
  | fuel + 1, acc, cs =>
    match cs with
    | '*' :: rest =>
      match parseAtom fuel rest with
      | some (e, rest1) => parseMulTail fuel (XExpr.binop '*' acc e) rest1
      | none => none
    | '/' :: rest =>
      match parseAtom fuel rest with
      | some (e, rest1) => parseMulTail fuel (XExpr.binop '/' acc e) rest1
      | none => none
    | _ => some (acc, cs)

def parseMul : Nat → List Char → Option (XExpr × List Char)
  | 0, _ => none
  | fuel + 1, cs =>
    match parseAtom fuel cs with
    | some (e, rest) => parseMulTail fuel e rest
    | none => none

def parseAddTail : Nat → XExpr → List Char → Option (XExpr × List Char)
  | 0, _, _ => none
  | fuel + 1, acc, cs =>
    match cs with
    | '+' :: rest =>
      match parseMul fuel rest with
      | some (e, rest1) => parseAddTail fuel (XExpr.binop '+' acc e) rest1
      | none => none
    | '-' :: rest =>
      match parseMul fuel rest with
      | some (e, rest1) => parseAddTail fuel (XExpr.binop '-' acc e) rest1
      | none => none
    | _ => some (acc, cs)

def parseAdd : Nat → List Char → Option (XExpr × List Char)
  | 0, _ => none
  | fuel + 1, cs =>
    match parseMul fuel cs with
    | some (e, rest) => parseAddTail fuel e rest
    | none => none

def parseCmp : Nat → List Char → Option (XExpr × List Char)
  | 0, _ => none
  | fuel + 1, cs =>
    match parseAdd fuel cs with
    | some (e, '>' :: rest) =>
      match parseAdd fuel rest with
      | some (e2, rest1) => some (XExpr.binop '>' e e2, rest1)
      | none => none
    | some (e, rest) => some (e, rest)
    | none => none

end

/-- Parse one of the engine's formula strings completely. -/
def parseFormula (s : String) : Option XExpr :=
  match parseCmp (4 * s.toList.length + 4) s.toList with
  | some (e, []) => some e
  | _ => none

/-- Evaluate a formula string over an environment (`err` when the string is
outside the supported fragment). -/
def evalFormulaStr (env : XEnv) (s : String) : XVal :=
  match parseFormula s with
  | some e => evalX env e
  | none => .err

/-- The formula text stored at a given column of a given row. -/
def formulaTextAt (rows : List Row) (rowNum : Int) (col : String) : Option String :=
  match rows.find? (fun rw => rw.r = rowNum) with
  | some rw =>
    match rw.cells.find? (fun c => c.r = some (col ++ istr rowNum)) with
    | some c =>
      match c.f with
      | some fm => fm.text
      | none => none
    | none => none
  | none => none

def envWith (env : XEnv) (col : String) (r : Int) (v : XVal) : XEnv := fun c rr =>
  if c = column_index col ∧ rr = r then v else env c rr

/-- The value the spreadsheet reaches for one employee row: evaluate the
written formulas in their dependency order (`Q` from the hour inputs; the
fraction columns `L N P` from `Q`; the hours total `D`; pay `E` and premium
`F` from `D`; commissions `G`), which is the unique fixpoint of the acyclic
cell-dependency graph of `set_employee_row_formulas`. -/
def evalEmployeeRow (rows : List Row) (rowNum : Int) (base : XEnv) : XEnv :=
  let stepCol := fun (env : XEnv) (col : String) =>
    envWith env col rowNum (evalFormulaStr env ((formulaTextAt rows rowNum col).getD ""))
  ["Q", "L", "N", "P", "D", "E", "F", "G"].foldl stepCol base

/-! # Theorems -/

/-! ## Supporting lemmas -/

theorem eraseP_key_eq_filter (l : List (String × String)) (k : String)
    (h : (l.map Prod.fst).Nodup) :
    l.eraseP (fun p => p.1 = k) = l.filter (fun p => p.1 ≠ k) := by
  induction l with
  | nil => simp
  | cons a l ih =>
    simp only [List.map_cons, List.nodup_cons] at h
    by_cases ha : a.1 = k
    · rw [List.eraseP_cons_of_pos (by simpa using ha)]
      have hself : l.filter (fun p => decide ¬(p.1 = k)) = l := by
        apply List.filter_eq_self.mpr
        intro x hx
        have hxk : ¬ x.1 = k := by
          intro hk
          exact h.1 (by simpa [ha, hk] using List.mem_map_of_mem Prod.fst hx)
        simpa using hxk
      simp only [ne_eq]
      rw [List.filter_cons_of_neg (by simpa using ha), hself]
    · rw [List.eraseP_cons_of_neg (by simpa using ha)]
      simp only [ne_eq] at ih ⊢
      rw [List.filter_cons_of_pos (by simpa using ha), ih h.2]

/-! ## C10 — forced row visibility -/

/-- C10: after the fill operation's final sheet transformation
(`ensure_all_rows_visible`, applied to the produced worksheet before
serialization), every row of `sheetData` has its `hidden` attribute removed
while its number, every other attribute (in order) and its cells are
unchanged; the rest of the sheet is untouched. -/
theorem C10_rows_forced_visible (sheet : Sheet)
    (hnodup : ∀ rw ∈ sheet.sheetData, (rw.attrs.map Prod.fst).Nodup) :
    (ensure_all_rows_visible sheet).mergeCells = sheet.mergeCells ∧
    (ensure_all_rows_visible sheet).dimensionRef = sheet.dimensionRef ∧
    (ensure_all_rows_visible sheet).sheetData.length = sheet.sheetData.length ∧
    ∀ i (hi : i < sheet.sheetData.length),
      ((ensure_all_rows_visible sheet).sheetData.get
          ⟨i, by simpa [ensure_all_rows_visible] using hi⟩).r =
        (sheet.sheetData.get ⟨i, hi⟩).r ∧
      ((ensure_all_rows_visible sheet).sheetData.get
          ⟨i, by simpa [ensure_all_rows_visible] using hi⟩).cells =
        (sheet.sheetData.get ⟨i, hi⟩).cells ∧
      ((ensure_all_rows_visible sheet).sheetData.get
          ⟨i, by simpa [ensure_all_rows_visible] using hi⟩).attrs =
        (sheet.sheetData.get ⟨i, hi⟩).attrs.filter (fun p => p.1 ≠ "hidden") := by
  refine ⟨rfl, rfl, by simp [ensure_all_rows_visible], ?_⟩
  intro i hi
  have hmem : sheet.sheetData.get ⟨i, hi⟩ ∈ sheet.sheetData := List.get_mem _ _ _
  have hkey := hnodup _ hmem
  refine ⟨?_, ?_, ?_⟩
  · simp [ensure_all_rows_visible]
  · simp [ensure_all_rows_visible]
  · simp only [ensure_all_rows_visible, List.get_eq_getElem, List.getElem_map]
    exact eraseP_key_eq_filter _ _ hkey

/-- C10 witness: a concrete hidden template row loses exactly its `hidden`
attribute. -/
theorem C10_rows_forced_visible_witness :
    ((ensure_all_rows_visible
        { sheetData := [{ r := 3, attrs := [("ht", "20"), ("hidden", "1"), ("customHeight", "1")],
                          cells := [] }],
          mergeCells := none, dimensionRef := none }).sheetData.get ⟨0, by decide⟩).attrs =
      [("ht", "20"), ("customHeight", "1")] := by
  have h := C10_rows_forced_visible
    { sheetData := [{ r := 3, attrs := [("ht", "20"), ("hidden", "1"), ("customHeight", "1")],
                      cells := [] }],
      mergeCells := none, dimensionRef := none }
    (by decide)
  obtain ⟨-, -, -, h4⟩ := h
  have := (h4 0 (by decide)).2.2
  simpa using this

/-! ## C4 — the per-employee total-hours formula -/

/-- C4 (failing input): the column-D formula written by
`set_employee_row_formulas` is `SUM(K5:O5)`, a range that also covers the
hour-fraction columns `L` and `N` written by the same function.  For an
employee with rate 10 and hours `K = 10, M = 0, O = 0`, the sheet's
fixpoint gives `Q = 10` (the attributed-hours total, `K+M+O`) but `D = 11`
(`K + L + M + N + O` with `L = K/Q = 1`), so `D` is **not** the sum of the
company-hour columns, and the gross pay `E` is computed from the inflated
total (110 instead of 100). -/
theorem C4_total_hours_formula_bug :
    (formulaTextAt (set_employee_row_formulas [] 5) 5 "D" = some "SUM(K5:O5)")
    ∧ (evalEmployeeRow (set_employee_row_formulas [] 5) 5
        (fun c r =>
          if r = 5 ∧ c = column_index "C" then .num (Q.ofInt 10)
          else if r = 5 ∧ c = column_index "K" then .num (Q.ofInt 10)
          else .num (Q.ofInt 0)) (column_index "Q") 5 = .num (Q.ofInt 10))
    ∧ (evalEmployeeRow (set_employee_row_formulas [] 5) 5
        (fun c r =>
          if r = 5 ∧ c = column_index "C" then .num (Q.ofInt 10)
          else if r = 5 ∧ c = column_index "K" then .num (Q.ofInt 10)
          else .num (Q.ofInt 0)) (column_index "D") 5 = .num (Q.ofInt 11))
    ∧ (evalEmployeeRow (set_employee_row_formulas [] 5) 5
        (fun c r =>
          if r = 5 ∧ c = column_index "C" then .num (Q.ofInt 10)
          else if r = 5 ∧ c = column_index "K" then .num (Q.ofInt 10)
          else .num (Q.ofInt 0)) (column_index "D") 5 ≠ .num (Q.ofInt 10))
    ∧ (evalEmployeeRow (set_employee_row_formulas [] 5) 5
        (fun c r =>
          if r = 5 ∧ c = column_index "C" then .num (Q.ofInt 10)
          else if r = 5 ∧ c = column_index "K" then .num (Q.ofInt 10)
          else .num (Q.ofInt 0)) (column_index "E") 5 = .num (Q.ofInt 110)) := by
  decide

/-! ## C1 — row shifting and the absolute-reference sigil -/

/-- A well-formed reference token: what `FORMULA_CELL_REF_RE` can match. -/
def WfRefMatch (m : RefMatch) : Prop :=
  m.col ≠ [] ∧ m.col.length ≤ 3 ∧ (∀ c ∈ m.col, isUpperAZ c = true) ∧
    m.digits ≠ [] ∧ (∀ c ∈ m.digits, isDigit09 c = true)

/-- Transparent description of what the insertion shift does to one matched
reference: the row number gains `delta` exactly when it is `≥ startRow`; both
`$` markers are copied and **not** consulted.  (Used to state C1.) -/
def refRenderRowShifted (startRow delta : Int) (m : RefMatch) : List Char :=
  (if m.colAbs then ['$'] else []) ++ m.col ++ (if m.rowAbs then ['$'] else []) ++
    intToChars (if startRow ≤ (m.row : Int) then (m.row : Int) + delta else (m.row : Int))

theorem isUpperAZ_ne_dollar {c : Char} (h : isUpperAZ c = true) : ¬ c = '$' := by
  intro hc
  subst hc
  exact absurd h (by decide)

theorem isUpperAZ_ne_colon {c : Char} (h : isUpperAZ c = true) : ¬ c = ':' := by
  intro hc
  subst hc
  exact absurd h (by decide)

theorem isDigit09_ne_dollar {c : Char} (h : isDigit09 c = true) : ¬ c = '$' := by
  intro hc
  subst hc
  exact absurd h (by decide)

theorem isDigit09_ne_colon {c : Char} (h : isDigit09 c = true) : ¬ c = ':' := by
  intro hc
  subst hc
  exact absurd h (by decide)

theorem isDigit09_not_upper {c : Char} (h : isDigit09 c = true) : isUpperAZ c = false := by
  simp only [isDigit09, Bool.and_eq_true, decide_eq_true_eq] at h
  simp only [isUpperAZ, Bool.and_eq_true, decide_eq_true_eq, Bool.and_eq_false_iff,
    decide_eq_false_iff_not, not_le]
  left
  exact lt_of_le_of_lt h.2 (by decide)

theorem takeWhile_dropWhile_append_all (p : Char → Bool) (a b : List Char)
    (ha : ∀ x ∈ a, p x = true) (hb : ∀ y, b.head? = some y → p y = false) :
    (a ++ b).takeWhile p = a ∧ (a ++ b).dropWhile p = b := by
  induction a with
  | nil =>
    rcases b with _ | ⟨y, b'⟩
    · simp
    · have := hb y rfl
      simp [List.takeWhile, List.dropWhile, this]
  | cons x a ih =>
    have hx := ha x (by simp)
    have ih' := ih (fun z hz => ha z (by simp [hz]))
    simp only [List.cons_append, List.takeWhile, List.dropWhile, hx]
    refine ⟨?_, ?_⟩
    · show x :: List.takeWhile p (a ++ b) = x :: a
      rw [ih'.1]
    · show List.dropWhile p (a ++ b) = b
      exact ih'.2

/-- A well-formed reference renders to exactly one `FORMULA_CELL_REF_RE`
match (with nothing left over). -/
theorem matchRefAt_render (m : RefMatch) (h : WfRefMatch m) :
    matchRefAt m.render = some (m, []) := by
  obtain ⟨hcne, hclen, hcup, hdne, hddig⟩ := h
  have hbhead : ∀ y, ((if m.rowAbs then ['$'] else []) ++ m.digits).head? = some y →
      isUpperAZ y = false := by
    intro y hy
    rcases hra : m.rowAbs
    · rcases hd : m.digits with _ | ⟨d0, ds⟩
      · rw [hra, hd] at hy; simp at hy
      · rw [hra, hd] at hy
        simp at hy
        subst hy
        exact isDigit09_not_upper (hddig d0 (by simp [hd]))
    · rw [hra] at hy
      simp at hy
      subst hy
      decide
  have htk := takeWhile_dropWhile_append_all isUpperAZ m.col
    ((if m.rowAbs then ['$'] else []) ++ m.digits) hcup hbhead
  have htkd := takeWhile_dropWhile_append_all isDigit09 m.digits [] hddig (by intro y hy; simp at hy)
  simp only [List.append_nil] at htkd
  have hsd2 : stripDollar ((if m.rowAbs then ['$'] else []) ++ m.digits) = (m.rowAbs, m.digits) := by
    rcases hra : m.rowAbs
    · rcases hd : m.digits with _ | ⟨d0, ds⟩
      · exact absurd hd hdne
      · have hne2 : ¬ d0 = '$' := isDigit09_ne_dollar (hddig d0 (by simp [hd]))
        simp [stripDollar, hne2]
    · simp [stripDollar]
  have hlen : ¬ (m.col.length = 0 ∨ 3 < m.col.length) := by
    push_neg
    exact ⟨by simpa using hcne, hclen⟩
  have hdlen : ¬ (m.digits.length = 0) := by simpa using hdne
  rcases hca : m.colAbs
  · -- no leading `$`: the first render character is an uppercase letter
    rcases hc : m.col with _ | ⟨c0, crest⟩
    · exact absurd hc hcne
    · have hne : ¬ c0 = '$' := isUpperAZ_ne_dollar (hcup c0 (by simp [hc]))
      have hrender : m.render = c0 :: (crest ++ ((if m.rowAbs then ['$'] else []) ++ m.digits)) := by
        simp [RefMatch.render, hca, hc]
      rw [hrender]
      have hsd1 : stripDollar (c0 :: (crest ++ ((if m.rowAbs then ['$'] else []) ++ m.digits))) =
          (false, c0 :: (crest ++ ((if m.rowAbs then ['$'] else []) ++ m.digits))) := by
        simp [stripDollar, hne]
      unfold matchRefAt
      rw [hsd1]
      simp only
      have hre : c0 :: (crest ++ ((if m.rowAbs then ['$'] else []) ++ m.digits)) =
          m.col ++ ((if m.rowAbs then ['$'] else []) ++ m.digits) := by simp [hc]
      rw [hre, htk.1, htk.2, hsd2]
      rw [if_neg hlen, htkd.1, htkd.2, if_neg hdlen]
      rw [← hca]
  · have hrender : m.render = '$' :: (m.col ++ ((if m.rowAbs then ['$'] else []) ++ m.digits)) := by
      simp [RefMatch.render, hca]
    rw [hrender]
    unfold matchRefAt
    have hsd1 : stripDollar ('$' :: (m.col ++ ((if m.rowAbs then ['$'] else []) ++ m.digits))) =
        (true, m.col ++ ((if m.rowAbs then ['$'] else []) ++ m.digits)) := by
      simp [stripDollar]
    rw [hsd1]
    simp only
    rw [htk.1, htk.2, hsd2]
    rw [if_neg hlen, htkd.1, htkd.2, if_neg hdlen]
    rw [← hca]

theorem fullmatchRef_render (m : RefMatch) (h : WfRefMatch m) :
    fullmatchRef m.render = some m := by
  unfold fullmatchRef
  rw [matchRefAt_render m h]

theorem splitOnceColonGo_nocolon (acc : List Char) (cs : List Char)
    (h : ∀ c ∈ cs, ¬ c = ':') : splitOnceColonGo acc cs = [acc.reverse ++ cs] := by
  induction cs generalizing acc with
  | nil => simp [splitOnceColonGo]
  | cons c rest ih =>
    have hc := h c (by simp)
    simp only [splitOnceColonGo, if_neg hc]
    rw [ih (c :: acc) (fun x hx => h x (by simp [hx]))]
    simp

theorem splitOnceColonGo_pair (acc a b : List Char) (h : ∀ c ∈ a, ¬ c = ':') :
    splitOnceColonGo acc (a ++ ':' :: b) = [acc.reverse ++ a, b] := by
  induction a generalizing acc with
  | nil => simp [splitOnceColonGo]
  | cons c rest ih =>
    have hc := h c (by simp)
    simp only [List.cons_append, splitOnceColonGo, if_neg hc]
    show splitOnceColonGo (c :: acc) (rest ++ ':' :: b) = _
    rw [ih (c :: acc) (fun x hx => h x (by simp [hx]))]
    simp

theorem wfRef_render_nocolon (m : RefMatch) (h : WfRefMatch m) :
    ∀ c ∈ m.render, ¬ c = ':' := by
  obtain ⟨-, -, hcup, -, hddig⟩ := h
  intro c hc
  simp only [RefMatch.render, List.mem_append] at hc
  rcases hc with ((h1 | h2) | h3) | h4
  · rcases hca : m.colAbs <;> rw [hca] at h1 <;> simp at h1
    subst h1; decide
  · exact isUpperAZ_ne_colon (hcup c h2)
  · rcases hra : m.rowAbs <;> rw [hra] at h3 <;> simp at h3
    subst h3; decide
  · exact isDigit09_ne_colon (hddig c h4)

/-- Pointwise reading of a successful `List.mapM` over `Option`. -/
theorem mapM_option_pointwise {α β : Type} (f : α → Option β) :
    ∀ (l : List α) (l2 : List β), l.mapM f = some l2 →
      l2.length = l.length ∧
        ∀ i (hi : i < l.length) (hi2 : i < l2.length),
          f (l.get ⟨i, hi⟩) = some (l2.get ⟨i, hi2⟩) := by
  intro l
  induction l with
  | nil =>
    intro l2 h
    simp only [List.mapM_nil, pure, Option.some.injEq] at h
    subst h
    exact ⟨rfl, by intro i hi; simp at hi⟩
  | cons a l ih =>
    intro l2 h
    rw [List.mapM_cons] at h
    rcases ha : f a with _ | b
    · rw [ha] at h; simp [ha] at h
    · rw [ha] at h
      simp only [Option.bind_eq_bind, Option.some_bind] at h
      rcases hl : l.mapM f with _ | bs
      · rw [hl] at h; simp at h
      · rw [hl] at h
        simp only [Option.some_bind, pure, Option.some.injEq] at h
        subst h
        obtain ⟨hlen, hpt⟩ := ih bs hl
        refine ⟨by simp [hlen], ?_⟩
        intro i hi hi2
        rcases i with _ | j
        · simpa using ha
        · simp only [List.get_eq_getElem, List.getElem_cons_succ]
          exact hpt j (by simpa using hi) (by simpa using hi2)

theorem replRowInsert_eq_refRenderRowShifted (s d : Int) :
    replRowInsert s d = refRenderRowShifted s d := rfl

/-- What the per-cell body of the row loop does, read off its branches. -/
theorem shiftCellForInsert_spec (s d : Int) (cell cell2 : Cell)
    (h : shiftCellForInsert s d cell = some cell2) :
    cell2.t = cell.t ∧ cell2.s = cell.s ∧ cell2.v = cell.v ∧
      cell2.inlineStr = cell.inlineStr ∧
    (cell.f = none → cell2.f = none) ∧
    (∀ fm, cell.f = some fm → cell2.f = some
        { text := fm.text.map (fun t => if t ≠ "" then shift_formula_for_row_insert t s d else t),
          ref := fm.ref.map (fun rf => if rf ≠ "" then shift_ref_rows rf s d else rf) }) ∧
    (cell.r = none → cell2.r = none) ∧
    (∀ ref col row, cell.r = some ref → ¬ ref = "" → parse_cell_ref ref = some (col, row) →
        cell2.r = (if s ≤ (row : Int) then some (col ++ istr ((row : Int) + d)) else some ref)) := by
  have hstep2 : ∀ (c1 : Cell), cell2 =
      (match c1.f with
        | some fm =>
          let fm1 :=
            match fm.text with
            | some t =>
              if t ≠ "" then { fm with text := some (shift_formula_for_row_insert t s d) }
              else fm
            | none => fm
          let fm2 :=
            match fm1.ref with
            | some rf =>
              if rf ≠ "" then { fm1 with ref := some (shift_ref_rows rf s d) }
              else fm1
            | none => fm1
          { c1 with f := some fm2 }
        | none => c1) →
      (c1.f = none → cell2 = c1) ∧
      (∀ fm, c1.f = some fm → cell2 = { c1 with
          f := some { text := fm.text.map
                        (fun t => if t ≠ "" then shift_formula_for_row_insert t s d else t),
                      ref := fm.ref.map
                        (fun rf => if rf ≠ "" then shift_ref_rows rf s d else rf) } }) := by
    intro c1 hc
    constructor
    · intro hf
      rw [hc, hf]
    · intro fm hf
      rw [hc, hf]
      rcases fm with ⟨ft, fr⟩
      rcases ft with _ | t <;> rcases fr with _ | rf
      · rfl
      · by_cases hrfe : rf = "" <;> simp [hrfe]
      · by_cases hte : t = "" <;> simp [hte]
      · by_cases hte : t = "" <;> by_cases hrfe : rf = "" <;> simp [hte, hrfe]
  rcases hr : cell.r with _ | ref
  · -- no cell address: pass-through into the formula step
    have h1 : shiftCellForInsert s d cell = some (match cell.f with
        | some fm =>
          let fm1 :=
            match fm.text with
            | some t =>
              if t ≠ "" then { fm with text := some (shift_formula_for_row_insert t s d) }
              else fm
            | none => fm
          let fm2 :=
            match fm1.ref with
            | some rf =>
              if rf ≠ "" then { fm1 with ref := some (shift_ref_rows rf s d) }
              else fm1
            | none => fm1
          { cell with f := some fm2 }
        | none => cell) := by
      simp [shiftCellForInsert, hr]
    rw [h1] at h
    have hc := Option.some.inj h
    obtain ⟨hnone, hsome⟩ := hstep2 cell hc.symm
    refine ⟨?_, ?_, ?_, ?_, ?_, ?_, ?_, ?_⟩
    · rcases hf : cell.f with _ | fm
      · rw [hnone hf]
      · rw [hsome fm hf]
    · rcases hf : cell.f with _ | fm
      · rw [hnone hf]
      · rw [hsome fm hf]
    · rcases hf : cell.f with _ | fm
      · rw [hnone hf]
      · rw [hsome fm hf]
    · rcases hf : cell.f with _ | fm
      · rw [hnone hf]
      · rw [hsome fm hf]
    · intro hf
      rw [hnone hf, hf]
    · intro fm hf
      rw [hsome fm hf]
    · intro _
      rcases hf : cell.f with _ | fm
      · rw [hnone hf, hr]
      · rw [hsome fm hf]
        exact hr
    · intro ref col row href
      exact absurd href (by simp)
  · by_cases hre : ref = ""
    · subst hre
      have h1 : shiftCellForInsert s d cell = some (match cell.f with
          | some fm =>
            let fm1 :=
              match fm.text with
              | some t =>
                if t ≠ "" then { fm with text := some (shift_formula_for_row_insert t s d) }
                else fm
              | none => fm
            let fm2 :=
              match fm1.ref with
              | some rf =>
                if rf ≠ "" then { fm1 with ref := some (shift_ref_rows rf s d) }
                else fm1
              | none => fm1
            { cell with f := some fm2 }
          | none => cell) := by
        simp [shiftCellForInsert, hr]
      rw [h1] at h
      have hc := Option.some.inj h
      obtain ⟨hnone, hsome⟩ := hstep2 cell hc.symm
      refine ⟨?_, ?_, ?_, ?_, ?_, ?_, ?_, ?_⟩
      · rcases hf : cell.f with _ | fm
        · rw [hnone hf]
        · rw [hsome fm hf]
      · rcases hf : cell.f with _ | fm
        · rw [hnone hf]
        · rw [hsome fm hf]
      · rcases hf : cell.f with _ | fm
        · rw [hnone hf]
        · rw [hsome fm hf]
      · rcases hf : cell.f with _ | fm
        · rw [hnone hf]
        · rw [hsome fm hf]
      · intro hf
        rw [hnone hf, hf]
      · intro fm hf
        rw [hsome fm hf]
      · intro hcontra
        exact absurd hcontra (by simp)
      · intro ref2 col row href hne
        have := Option.some.inj href
        exact absurd this.symm hne
    · rcases hp : parse_cell_ref ref with _ | colrow
      · have : shiftCellForInsert s d cell = none := by
          simp [shiftCellForInsert, hr, hre, hp]
        rw [this] at h
        exact absurd h (by simp)
      · rcases colrow with ⟨col, cellRow⟩
        have hcell1 : ∃ c1 : Cell,
            c1 = (if s ≤ (cellRow : Int) then
                    { cell with r := some (col ++ (⟨intToChars ((cellRow : Int) + d)⟩ : String)) }
                  else cell) ∧
            shiftCellForInsert s d cell = some (match c1.f with
              | some fm =>
                let fm1 :=
                  match fm.text with
                  | some t =>
                    if t ≠ "" then { fm with text := some (shift_formula_for_row_insert t s d) }
                    else fm
                  | none => fm
                let fm2 :=
                  match fm1.ref with
                  | some rf =>
                    if rf ≠ "" then { fm1 with ref := some (shift_ref_rows rf s d) }
                    else fm1
                  | none => fm1
                { c1 with f := some fm2 }
              | none => c1) := by
          by_cases hrow : s ≤ (cellRow : Int)
          · refine ⟨_, rfl, ?_⟩
            simp [shiftCellForInsert, hr, hre, hp, hrow]
          · refine ⟨_, rfl, ?_⟩
            simp [shiftCellForInsert, hr, hre, hp, hrow]
        obtain ⟨c1, hc1def, h1⟩ := hcell1
        rw [h1] at h
        have hc := Option.some.inj h
        obtain ⟨hnone, hsome⟩ := hstep2 c1 hc.symm
        have hc1t : c1.t = cell.t := by rw [hc1def]; split <;> rfl
        have hc1s : c1.s = cell.s := by rw [hc1def]; split <;> rfl
        have hc1v : c1.v = cell.v := by rw [hc1def]; split <;> rfl
        have hc1i : c1.inlineStr = cell.inlineStr := by rw [hc1def]; split <;> rfl
        have hc1f : c1.f = cell.f := by rw [hc1def]; split <;> rfl
        have hc1r : c1.r = (if s ≤ (cellRow : Int) then
            some (col ++ istr ((cellRow : Int) + d)) else some ref) := by
          rw [hc1def]
          split <;> simp [istr, hr]
        refine ⟨?_, ?_, ?_, ?_, ?_, ?_, ?_, ?_⟩
        · rcases hf : c1.f with _ | fm
          · rw [hnone hf, hc1t]
          · rw [hsome fm hf, ← hc1t]
        · rcases hf : c1.f with _ | fm
          · rw [hnone hf, hc1s]
          · rw [hsome fm hf, ← hc1s]
        · rcases hf : c1.f with _ | fm
          · rw [hnone hf, hc1v]
          · rw [hsome fm hf, ← hc1v]
        · rcases hf : c1.f with _ | fm
          · rw [hnone hf, hc1i]
          · rw [hsome fm hf, ← hc1i]
        · intro hf
          rw [hnone (hc1f.trans hf), hc1f, hf]
        · intro fm hf
          rw [hsome fm (hc1f.trans hf)]
        · intro hcontra
          exact absurd hcontra (by simp)
        · intro ref2 col2 row2 href hne hp2
          have hrefeq : ref = ref2 := Option.some.inj href
          subst hrefeq
          rw [hp] at hp2
          have hcr := Option.some.inj hp2
          have hcol : col = col2 := congrArg Prod.fst hcr
          have hrow : cellRow = row2 := congrArg Prod.snd hcr
          subst hcol
          subst hrow
          rcases hf : c1.f with _ | fm
          · rw [hnone hf, hc1r]
          · rw [hsome fm hf]
            exact hc1r

/-- What the per-row body of `shift_rows_in_sheet` does. -/
theorem shiftRowForInsert_spec (s d : Int) (rw1 rw2 : Row)
    (h : shiftRowForInsert s d rw1 = some rw2) :
    rw2.r = (if s ≤ rw1.r then rw1.r + d else rw1.r) ∧ rw2.attrs = rw1.attrs ∧
      rw1.cells.mapM (shiftCellForInsert s d) = some rw2.cells := by
  unfold shiftRowForInsert at h
  rcases hm : rw1.cells.mapM (shiftCellForInsert s d) with _ | cells1
  · rw [hm] at h
    exact absurd h (by simp)
  · rw [hm] at h
    simp only [Option.bind_eq_bind, Option.some_bind, pure, Option.some.injEq] at h
    subst h
    exact ⟨rfl, rfl, rfl⟩

/-- C1 counterexample: `shift_rows_in_sheet(5, 2)` on a sheet whose only
formula is the absolute reference `$C$10` rewrites it to `$C$12` — the `$`
sigil does **not** exempt a row reference from insertion renumbering, contrary
to the claim that absolute row references are left untouched. -/
theorem C1_absolute_shift_counterexample :
    (shift_rows_in_sheet
        { sheetData := [{ r := 1, attrs := [],
                          cells := [{ r := some "A1", t := none, s := none,
                                      f := some { text := some "$C$10", ref := none },
                                      v := none, inlineStr := none }] }],
          mergeCells := none, dimensionRef := none } 5 2).map
      (fun out => formulaTextAt out.sheetData 1 "A") = some (some "$C$12")
    ∧ (shift_rows_in_sheet
        { sheetData := [{ r := 1, attrs := [],
                          cells := [{ r := some "A1", t := none, s := none,
                                      f := some { text := some "$C$10", ref := none },
                                      v := none, inlineStr := none }] }],
          mergeCells := none, dimensionRef := none } 5 2).map
      (fun out => formulaTextAt out.sheetData 1 "A") ≠ some (some "$C$10") := by
  decide

theorem intercalate_colon_pair (x y : List Char) :
    List.intercalate [':'] [x, y] = x ++ ':' :: y := by
  simp [List.intercalate]

theorem intercalate_single (c : Char) (x : List Char) :
    List.intercalate [c] [x] = x := by
  simp [List.intercalate]

theorem mk_ne_empty_of_ne_nil {l : List Char} (h : l ≠ []) : (⟨l⟩ : String) ≠ "" := by
  intro hemp
  exact h (congrArg String.data hemp)

/-- C1 (amended): `shift_rows_in_sheet(startRow, delta)` adds `delta` to
every row reference whose row number is `≥ startRow` — the `$` sigil is
preserved in the output but does **not** exempt a reference from insertion
renumbering (absolute row references shift too) — and it applies the same
renumbering to row numbers, cell addresses, formula range annotations,
merged-range references and the dimension reference: (a) formula rewriting
is exactly the tokenwise row shift `refRenderRowShifted`; (b) a well-formed
range or single reference is renumbered the same way by `shift_ref_rows`;
(c) the sheet operation renumbers every row element, maps every merged-range
and dimension reference through `shift_ref_rows`, and rewrites every cell by
the per-cell step, which (d) renumbers the cell address and maps formula
text through `shift_formula_for_row_insert` and formula `ref` annotations
through `shift_ref_rows`. -/
theorem C1_row_shift_renumbers_every_row_ref
    (s d : Int) (hd : d ≠ 0) (f : String)
    (sheet out : Sheet) (hsh : shift_rows_in_sheet sheet s d = some out)
    (m1 m2 : RefMatch) (h1 : WfRefMatch m1) (h2 : WfRefMatch m2) :
    shift_formula_for_row_insert f s d =
      (⟨renderFToks (fun t => match t with
        | .lit c => [c]
        | .ref m => refRenderRowShifted s d m) (parseFToks f.toList)⟩ : String)
    ∧ shift_ref_rows (⟨m1.render ++ ':' :: m2.render⟩ : String) s d =
        (⟨refRenderRowShifted s d m1 ++ ':' :: refRenderRowShifted s d m2⟩ : String)
    ∧ shift_ref_rows (⟨m1.render⟩ : String) s d =
        (⟨refRenderRowShifted s d m1⟩ : String)
    ∧ out.mergeCells = sheet.mergeCells.map (List.map (fun mc =>
        ({ ref := mc.ref.map (fun rf => if rf = "" then rf else shift_ref_rows rf s d) } : MergeCell)))
    ∧ out.dimensionRef = sheet.dimensionRef.map
        (fun rf => if rf = "" then rf else shift_ref_rows rf s d)
    ∧ out.sheetData.length = sheet.sheetData.length
    ∧ (∀ i (hi : i < sheet.sheetData.length) (hi2 : i < out.sheetData.length),
        (out.sheetData.get ⟨i, hi2⟩).r =
          (if s ≤ (sheet.sheetData.get ⟨i, hi⟩).r then (sheet.sheetData.get ⟨i, hi⟩).r + d
           else (sheet.sheetData.get ⟨i, hi⟩).r)
        ∧ (out.sheetData.get ⟨i, hi2⟩).attrs = (sheet.sheetData.get ⟨i, hi⟩).attrs
        ∧ (sheet.sheetData.get ⟨i, hi⟩).cells.mapM (shiftCellForInsert s d) =
            some (out.sheetData.get ⟨i, hi2⟩).cells)
    ∧ (∀ cell cell2, shiftCellForInsert s d cell = some cell2 →
        cell2.t = cell.t ∧ cell2.s = cell.s ∧ cell2.v = cell.v ∧
          cell2.inlineStr = cell.inlineStr ∧
        (cell.f = none → cell2.f = none) ∧
        (∀ fm, cell.f = some fm → cell2.f = some
            { text := fm.text.map
                (fun t => if t ≠ "" then shift_formula_for_row_insert t s d else t),
              ref := fm.ref.map
                (fun rf => if rf ≠ "" then shift_ref_rows rf s d else rf) }) ∧
        (cell.r = none → cell2.r = none) ∧
        (∀ ref col row, cell.r = some ref → ¬ ref = "" → parse_cell_ref ref = some (col, row) →
            cell2.r = (if s ≤ (row : Int) then some (col ++ istr ((row : Int) + d))
                       else some ref))) := by
  have hm1col := wfRef_render_nocolon m1 h1
  have hm1ne : m1.render ≠ [] := by
    obtain ⟨hcne, -, -, -, -⟩ := h1
    simp only [RefMatch.render]
    intro hcontra
    rcases hc : m1.col with _ | ⟨c0, cr⟩
    · exact hcne hc
    · rw [hc] at hcontra
      rcases hca : m1.colAbs <;> rw [hca] at hcontra <;> simp at hcontra
  have hformula : ∀ g : String, shift_formula_for_row_insert g s d =
      (⟨renderFToks (fun t => match t with
        | .lit c => [c]
        | .ref m => refRenderRowShifted s d m) (parseFToks g.toList)⟩ : String) := by
    intro g
    by_cases hg : g = ""
    · subst hg
      rfl
    · unfold shift_formula_for_row_insert
      rw [if_neg (by simp [hg, hd])]
      rw [subRefs_eq_tokens, replRowInsert_eq_refRenderRowShifted]
  refine ⟨hformula f, ?_, ?_, ?_⟩
  · -- range pair
    unfold shift_ref_rows
    rw [if_neg (by
      simp only [not_or]
      exact ⟨mk_ne_empty_of_ne_nil (by simp), hd⟩)]
    have hts : (⟨m1.render ++ ':' :: m2.render⟩ : String).toList =
        m1.render ++ ':' :: m2.render := rfl
    rw [hts]
    unfold splitOnceColon
    rw [splitOnceColonGo_pair [] m1.render m2.render hm1col]
    simp only [List.reverse_nil, List.nil_append, List.map_cons, List.map_nil]
    rw [fullmatchRef_render m1 h1, fullmatchRef_render m2 h2]
    rw [intercalate_colon_pair]
    rfl
  · -- single endpoint
    unfold shift_ref_rows
    rw [if_neg (by
      simp only [not_or]
      exact ⟨mk_ne_empty_of_ne_nil hm1ne, hd⟩)]
    have hts : (⟨m1.render⟩ : String).toList = m1.render := rfl
    rw [hts]
    unfold splitOnceColon
    rw [splitOnceColonGo_nocolon [] m1.render hm1col]
    simp only [List.reverse_nil, List.nil_append, List.map_cons, List.map_nil]
    rw [fullmatchRef_render m1 h1]
    rw [intercalate_single]
    rfl
  · -- sheet-level conjuncts
    unfold shift_rows_in_sheet at hsh
    rw [if_neg hd] at hsh
    rcases hrows : sheet.sheetData.mapM (shiftRowForInsert s d) with _ | rows1
    · rw [hrows] at hsh
      exact absurd hsh (by simp)
    · rw [hrows] at hsh
      simp only [Option.bind_eq_bind, Option.some_bind, pure, Option.some.injEq] at hsh
      subst hsh
      obtain ⟨hlen, hpt⟩ := mapM_option_pointwise (shiftRowForInsert s d) sheet.sheetData rows1 hrows
      refine ⟨rfl, rfl, hlen, ?_, ?_⟩
      · intro i hi hi2
        have hrow := hpt i hi hi2
        exact shiftRowForInsert_spec s d _ _ hrow
      · intro cell cell2 hc
        exact shiftCellForInsert_spec s d cell cell2 hc

/-- C1 amended-claim witness: concrete instance — shifting at row 5 by 2
renumbers both the relative `C10` and the absolute `$C$10`. -/
theorem C1_row_shift_witness :
    shift_formula_for_row_insert "C10+$C$10" 5 2 = "C12+$C$12" := by
  have h := (C1_row_shift_renumbers_every_row_ref 5 2 (by decide) "C10+$C$10"
    { sheetData := [], mergeCells := none, dimensionRef := none }
    { sheetData := [], mergeCells := none, dimensionRef := none } (by decide)
    ⟨false, ['A'], false, ['1']⟩ ⟨false, ['B'], false, ['2']⟩
    (by refine ⟨by decide, by decide, ?_, by decide, ?_⟩ <;> decide)
    (by refine ⟨by decide, by decide, ?_, by decide, ?_⟩ <;> decide)).1
  rw [h]
  decide

/-! ## C2 — row-copy translation -/

/-- Transparent description of the row-copy translation of one matched
reference: the row number gains `delta` exactly when the row marker is
*relative* (no `$`); an absolute row reference is unchanged. -/
def refRenderRowCopied (delta : Int) (m : RefMatch) : List Char :=
  (if m.colAbs then ['$'] else []) ++ m.col ++ (if m.rowAbs then ['$'] else []) ++
    intToChars (if m.rowAbs then (m.row : Int) else (m.row : Int) + delta)

theorem replRowCopy_eq_refRenderRowCopied (d : Int) :
    replRowCopy d = refRenderRowCopied d := by
  funext m
  unfold replRowCopy refRenderRowCopied
  rcases hra : m.rowAbs <;> simp [hra]

/-- C2 (amended): cloning a template row applies row-copy translation — for
every cell whose formula has nonempty text, each *relative* row reference
gains `(target − source)`, each absolute (`$`-marked) row reference is
unchanged, the cached value node and the fixed-range `ref` annotation are
dropped; every formula cell (even with empty or absent text) loses its
cached value, but a formula node with empty or absent text keeps its `ref`
annotation; and the clone is inserted in sorted position with every cell
readdressed to the target row. -/
theorem C2_row_copy_translation (tmpl : Row) (target : Int) (rows rows2 : List Row)
    (h : clone_template_row rows tmpl target = some rows2)
    (hd : target - tmpl.r ≠ 0) :
    (∃ cells2, tmpl.cells.mapM (cloneCellForCopy target (target - tmpl.r)) = some cells2 ∧
        rows2 = insert_row_in_order rows { tmpl with r := target, cells := cells2 })
    ∧ (∀ cell cell3, cloneCellForCopy target (target - tmpl.r) cell = some cell3 →
        (∀ fm t, cell.f = some fm → fm.text = some t → ¬ t = "" →
          cell3.f = some { text := some (shift_formula_for_row_copy t (target - tmpl.r)),
                           ref := none } ∧ cell3.v = none)
        ∧ (∀ fm, cell.f = some fm → cell3.v = none)
        ∧ (∀ fm, cell.f = some fm → fm.text = none → cell3.f = some fm)
        ∧ (cell.f = none → cell3.f = none ∧ cell3.v = cell.v))
    ∧ (∀ g : String, shift_formula_for_row_copy g (target - tmpl.r) =
        (⟨renderFToks (fun tk => match tk with
          | .lit c => [c]
          | .ref m => refRenderRowCopied (target - tmpl.r) m) (parseFToks g.toList)⟩ : String)) := by
  refine ⟨?_, ?_, ?_⟩
  · -- structure of the clone
    unfold clone_template_row at h
    simp only [Option.bind_eq_bind] at h
    rcases hm : tmpl.cells.mapM (cloneCellForCopy target (target - tmpl.r)) with _ | cells2
    · rw [hm] at h
      simp at h
    · rw [hm] at h
      simp only [Option.some_bind, pure, Option.some.injEq] at h
      exact ⟨cells2, rfl, h.symm⟩
  · -- per-cell copy facts
    intro cell cell3 hc
    have hstep : ∃ c1 : Cell, c1.f = cell.f ∧ c1.v = cell.v ∧
        cell3 = (
          let c2 :=
            match c1.f with
            | some fm =>
              match fm.text with
              | some t =>
                if t ≠ "" then
                  { c1 with f := some { text := some (shift_formula_for_row_copy t (target - tmpl.r)),
                                        ref := none } }
                else c1
              | none => c1
            | none => c1
          match c2.f, c2.v with
          | some _, some _ => { c2 with v := none }
          | _, _ => c2) := by
      rcases hr : cell.r with _ | ref
      · refine ⟨cell, rfl, rfl, ?_⟩
        have h1 := hc
        simp only [cloneCellForCopy, hr] at h1
        exact (Option.some.inj h1).symm
      · by_cases hre : ref = ""
        · subst hre
          refine ⟨cell, rfl, rfl, ?_⟩
          have h1 := hc
          simp only [cloneCellForCopy, hr] at h1
          simp only [reduceIte] at h1
          exact (Option.some.inj h1).symm
        · rcases hp : parse_cell_ref ref with _ | colrow
          · exfalso
            have h1 := hc
            simp [cloneCellForCopy, hr, hre, hp] at h1
          · rcases colrow with ⟨col, cellRow⟩
            refine ⟨{ cell with r := some (col ++ (⟨intToChars target⟩ : String)) }, rfl, rfl, ?_⟩
            have h1 := hc
            simp only [cloneCellForCopy, hr, hre, hp] at h1
            simp only [reduceIte] at h1
            exact (Option.some.inj h1).symm
    obtain ⟨c1, hf1, hv, hc3⟩ := hstep
    refine ⟨?_, ?_, ?_, ?_⟩
    · intro fm t hf ht hte
      rw [← hf1] at hf
      simp only [hf, ht, hte, ne_eq, not_false_eq_true, if_true, reduceIte] at hc3
      rcases hcv : c1.v with _ | v <;> rw [hcv] at hc3 <;> rw [hc3] <;> exact ⟨rfl, rfl⟩
    · intro fm hf
      rw [← hf1] at hf
      rcases ht : fm.text with _ | t
      · simp only [hf, ht] at hc3
        rcases hcv : c1.v with _ | v <;> rw [hcv] at hc3 <;> rw [hc3] <;> first | rfl | exact hcv | exact hf
      · by_cases hte : t = ""
        · subst hte
          simp only [hf, ht] at hc3
          rw [if_neg (by decide : ¬ ("" ≠ ""))] at hc3
          rw [hf] at hc3
          rcases hcv : c1.v with _ | v <;> rw [hcv] at hc3 <;> rw [hc3] <;> first | rfl | exact hcv | exact hf
        · simp only [hf, ht, hte, ne_eq, not_false_eq_true, if_true, reduceIte] at hc3
          rcases hcv : c1.v with _ | v <;> rw [hcv] at hc3 <;> rw [hc3] <;> first | rfl | exact hcv | exact hf
    · intro fm hf ht
      rw [← hf1] at hf
      simp only [hf, ht] at hc3
      rcases hcv : c1.v with _ | v <;> rw [hcv] at hc3 <;> rw [hc3] <;> first | rfl | exact hcv | exact hf
    · intro hf
      rw [← hf1] at hf
      simp only [hf] at hc3
      rw [hc3]
      exact ⟨hf, hv⟩
  · -- the tokenwise row-copy law
    intro g
    by_cases hg : g = ""
    · subst hg
      rfl
    · unfold shift_formula_for_row_copy
      rw [if_neg (by simp [hg, hd])]
      rw [subRefs_eq_tokens, replRowCopy_eq_refRenderRowCopied]

/-- C2 amended-claim witness: cloning row 10 to row 15 (delta 5) turns the
relative `C10` into `C15` while the absolute `$C$10` stays put. -/
theorem C2_row_copy_translation_witness :
    shift_formula_for_row_copy "C10+$C$10" 5 = "C15+$C$10" := by
  have h := (C2_row_copy_translation
    { r := 10, attrs := [],
      cells := [{ r := some "B10", t := none, s := none,
                  f := some { text := some "C10+$C$10", ref := some "B10:B12" },
                  v := some "99", inlineStr := none }] } 15 []
    [{ r := 15, attrs := [],
       cells := [{ r := some "B15", t := none, s := none,
                   f := some { text := some "C15+$C$10", ref := none },
                   v := none, inlineStr := none }] }]
    (by decide) (by decide)).2.2 "C10+$C$10"
  exact h.trans (by decide)

/-- C2 counterexample: `clone_template_row` pops the fixed-range `ref`
annotation of a formula only when the formula has nonempty text; a cloned
formula cell with an empty-text formula node keeps its `ref` annotation
(`B10:B12` here), contrary to the claim that every cloned formula cell
carries no fixed cell-range annotation.  (The cached value is dropped.) -/
theorem C2_ref_annotation_counterexample :
    clone_template_row []
        { r := 10, attrs := [],
          cells := [{ r := some "B10", t := none, s := none,
                      f := some { text := none, ref := some "B10:B12" },
                      v := some "7", inlineStr := none }] } 15 =
      some [{ r := 15, attrs := [],
              cells := [{ r := some "B15", t := none, s := none,
                          f := some { text := none, ref := some "B10:B12" },
                          v := none, inlineStr := none }] }]
    ∧ (some { text := none, ref := some "B10:B12" } : Option Formula) ≠
        some { text := none, ref := none } := by
  decide

/-! ## C5 — reassembly splice -/

/-- `subn(..., count=1)` returns zero replacements exactly when no position
of the text matches the pattern. -/
theorem subnOnceFuel_none_iff (matchAt : List Char → Option (List Char))
    (repl : List Char) (hnil : matchAt [] = none) :
    ∀ (fuel : Nat) (cs : List Char), cs.length ≤ fuel →
      (subnOnceFuel matchAt repl fuel cs = none ↔ ∀ i, matchAt (cs.drop i) = none) := by
  intro fuel
  induction fuel with
  | zero =>
    intro cs h
    have : cs = [] := List.length_eq_zero.mp (Nat.le_zero.mp h)
    subst this
    simp [subnOnceFuel, hnil]
  | succ n ih =>
    intro cs h
    rcases cs with _ | ⟨c, cs1⟩
    · simp [subnOnceFuel, hnil]
    · simp only [subnOnceFuel]
      cases hm : matchAt (c :: cs1) with
      | some rest =>
        constructor
        · intro hcontra
          exact absurd hcontra (by simp)
        · intro hall
          have := hall 0
          simp only [List.drop_zero] at this
          rw [hm] at this
          exact absurd this (by simp)
      | none =>
        simp only [List.length_cons] at h
        have ihc := ih cs1 (by omega)
        constructor
        · intro hmap i
          have hnone : subnOnceFuel matchAt repl n cs1 = none := by
            cases hs : subnOnceFuel matchAt repl n cs1 with
            | none => rfl
            | some r =>
              rw [hs] at hmap
              exact absurd hmap (by simp)
          rcases i with _ | j
          · simpa using hm
          · simpa using (ihc.mp hnone) j
        · intro hall
          have hnone : ∀ i, matchAt (cs1.drop i) = none := by
            intro i
            simpa using hall (i + 1)
          rw [ihc.mpr hnone]
          rfl

/-- When `subn(..., count=1)` does replace, it replaces the leftmost match:
the output is the prefix before the first matching position, the replacement,
and the text after that match. -/
theorem subnOnceFuel_some_spec (matchAt : List Char → Option (List Char))
    (repl : List Char) :
    ∀ (fuel : Nat) (cs out : List Char), subnOnceFuel matchAt repl fuel cs = some out →
      ∃ i rest, i ≤ cs.length ∧ matchAt (cs.drop i) = some rest ∧
        (∀ j < i, matchAt (cs.drop j) = none) ∧
        out = cs.take i ++ repl ++ rest := by
  intro fuel
  induction fuel with
  | zero =>
    intro cs out h
    simp only [subnOnceFuel] at h
    cases hm : matchAt cs with
    | some rest =>
      rw [hm] at h
      refine ⟨0, rest, by simp, by simpa using hm, by intro j hj; omega, ?_⟩
      simpa using (Option.some.inj h).symm
    | none =>
      rw [hm] at h
      exact absurd h (by simp)
  | succ n ih =>
    intro cs out h
    rcases cs with _ | ⟨c, cs1⟩
    · simp only [subnOnceFuel] at h
      cases hm : matchAt [] with
      | some rest =>
        rw [hm] at h
        refine ⟨0, rest, by simp, by simpa using hm, by intro j hj; omega, ?_⟩
        simpa using (Option.some.inj h).symm
      | none =>
        rw [hm] at h
        exact absurd h (by simp)
    · simp only [subnOnceFuel] at h
      cases hm : matchAt (c :: cs1) with
      | some rest =>
        rw [hm] at h
        refine ⟨0, rest, by simp, by simpa using hm, by intro j hj; omega, ?_⟩
        simpa using (Option.some.inj h).symm
      | none =>
        rw [hm] at h
        cases hs : subnOnceFuel matchAt repl n cs1 with
        | none =>
          rw [hs] at h
          exact absurd h (by simp)
        | some out1 =>
          rw [hs] at h
          have h2 : c :: out1 = out := by simpa using h
          obtain ⟨i, rest, hile, hmi, hbefore, hout⟩ := ih cs1 out1 hs
          refine ⟨i + 1, rest, by simpa using hile, by simpa using hmi, ?_, ?_⟩
          · intro j hj
            rcases j with _ | j1
            · simpa using hm
            · simpa using hbefore j1 (by omega)
          · rw [← h2, hout]
            simp

/-- C5 (amended): the worksheet-data splice replaces the *first* occurrence
of the `sheetData` pattern and fails (`ValueError`) exactly when the pattern
does not occur at all — two or more occurrences do not fail; the
calculation-properties splice never fails: with no in-memory `calcPr`
fragment, or with no pattern occurrence in the original text, it returns the
original workbook text unchanged. -/
theorem C5_splice_first_occurrence (orig frag calcOrig : String) :
    (merge_sheet_data_into_original_xml orig frag = none ↔
      ∀ i, matchElemAt "sheetData".toList false (orig.toList.drop i) = none)
    ∧ (∀ out, merge_sheet_data_into_original_xml orig frag = some out →
        ∃ i rest, i ≤ orig.toList.length ∧
          matchElemAt "sheetData".toList false (orig.toList.drop i) = some rest ∧
          (∀ j < i, matchElemAt "sheetData".toList false (orig.toList.drop j) = none) ∧
          out = (⟨orig.toList.take i ++ frag.toList ++ rest⟩ : String))
    ∧ merge_calc_pr_into_original_workbook_xml calcOrig none = calcOrig
    ∧ ((∀ i, matchElemAt "calcPr".toList true (calcOrig.toList.drop i) = none) →
        merge_calc_pr_into_original_workbook_xml calcOrig (some frag) = calcOrig) := by
  refine ⟨?_, ?_, rfl, ?_⟩
  · unfold merge_sheet_data_into_original_xml
    constructor
    · intro hm
      have : subnOnceFuel (matchElemAt "sheetData".toList false) frag.toList
          orig.toList.length orig.toList = none := by
        cases hs : subnOnceFuel (matchElemAt "sheetData".toList false) frag.toList
            orig.toList.length orig.toList with
        | none => rfl
        | some r =>
          rw [hs] at hm
          exact absurd hm (by simp)
      exact (subnOnceFuel_none_iff _ _ rfl orig.toList.length orig.toList (Nat.le_refl _)).mp this
    · intro hall
      rw [(subnOnceFuel_none_iff _ _ rfl orig.toList.length orig.toList (Nat.le_refl _)).mpr hall]
      rfl
  · intro out hm
    unfold merge_sheet_data_into_original_xml at hm
    cases hs : subnOnceFuel (matchElemAt "sheetData".toList false) frag.toList
        orig.toList.length orig.toList with
    | none =>
      rw [hs] at hm
      exact absurd hm (by simp)
    | some merged =>
      rw [hs] at hm
      have hm2 : (⟨merged⟩ : String) = out := by simpa using hm
      obtain ⟨i, rest, hile, hmi, hbefore, hout⟩ :=
        subnOnceFuel_some_spec _ _ orig.toList.length orig.toList merged hs
      exact ⟨i, rest, hile, hmi, hbefore, by rw [← hm2, hout]⟩
  · intro hall
    have hz := (subnOnceFuel_none_iff (matchElemAt "calcPr".toList true) frag.toList rfl
      calcOrig.toList.length calcOrig.toList (Nat.le_refl _)).mpr hall
    simp only [merge_calc_pr_into_original_workbook_xml, hz]

/-- C5 amended-claim witness: a concrete splice replaces the first of two
`sheetData` blocks at position 3. -/
theorem C5_splice_first_occurrence_witness :
    ∃ i rest, i ≤ "<a><sheetData>x</sheetData><sheetData>y</sheetData></a>".toList.length ∧
      matchElemAt "sheetData".toList false
        ("<a><sheetData>x</sheetData><sheetData>y</sheetData></a>".toList.drop i) = some rest ∧
      (∀ j < i, matchElemAt "sheetData".toList false
        ("<a><sheetData>x</sheetData><sheetData>y</sheetData></a>".toList.drop j) = none) ∧
      "<a><F/><sheetData>y</sheetData></a>" =
        (⟨"<a><sheetData>x</sheetData><sheetData>y</sheetData></a>".toList.take i ++
          "<F/>".toList ++ rest⟩ : String) :=
  (C5_splice_first_occurrence "<a><sheetData>x</sheetData><sheetData>y</sheetData></a>"
    "<F/>" "w").2.1 "<a><F/><sheetData>y</sheetData></a>" (by decide)

/-- C5 counterexample: the splice is `subn(..., count=1)`, which only
detects *zero* occurrences.  (i) With two `sheetData` blocks the worksheet
merge does not fail — the first block is replaced; (ii) with no `calcPr`
occurrence the workbook merge does not fail either — it silently returns the
original text unchanged. -/
theorem C5_exactly_once_counterexample :
    merge_sheet_data_into_original_xml
        "<sheetData>a</sheetData><sheetData>b</sheetData>" "<F/>" =
      some "<F/><sheetData>b</sheetData>"
    ∧ merge_calc_pr_into_original_workbook_xml "<wb>no calc element</wb>" (some "<calcPr/>") =
        "<wb>no calc element</wb>" := by
  decide

/-! ## C6 — output archive frame -/

/-- C6 counterexample: `xl/calcChain.xml` is dropped only when the workbook
relationships part exists *and* contains a calc-chain relationship; an
archive that has `xl/calcChain.xml` but no relationships part keeps the
stale part in the output, contrary to the claim that it is removed whenever
present in the input. -/
theorem C6_calc_chain_retained_counterexample :
    fill_workbook_repackage
        [("xl/calcChain.xml", "CC"), ("xl/worksheets/sheet1.xml", "S"),
         ("xl/workbook.xml", "W"), ("docProps/core.xml", "P")]
        "S2" "W2" (fun _ => none) (fun _ => "") =
      some [("xl/calcChain.xml", "CC"), ("xl/worksheets/sheet1.xml", "S2"),
            ("xl/workbook.xml", "W2"), ("docProps/core.xml", "P")] := by
  decide

/-- A kept archive part has the path of the input part it came from, and
under the removal flag no part with the calc-chain path is kept. -/
theorem repackF_fst (s w : String) (u : Option String) (flag : Bool)
    (a p : String × String) (hfa : repackF s w u flag a = some p) :
    p.1 = a.1 ∧ ¬ (flag = true ∧ a.1 = "xl/calcChain.xml") := by
  unfold repackF at hfa
  split_ifs at hfa with h1 h2 h3 h4
  · exact ⟨by rw [← Option.some.inj hfa], h1⟩
  · exact ⟨by rw [← Option.some.inj hfa], h1⟩
  · exact ⟨by rw [← Option.some.inj hfa], h1⟩
  · exact ⟨by rw [← Option.some.inj hfa], h1⟩

/-- A successful repackaging is the per-part substitution map over the input
archive, with the skip flag given by `calcChainRemoved`. -/
theorem fill_workbook_repackage_spec (zinItems : List (String × String))
    (sheet1Bytes workbookBytes : String)
    (parseRels : String → Option (List RelElem))
    (serializeRels : List RelElem → String)
    (out : List (String × String))
    (h : fill_workbook_repackage zinItems sheet1Bytes workbookBytes parseRels
          serializeRels = some out) :
    ∃ u : Option String,
      out = zinItems.filterMap
        (repackF sheet1Bytes workbookBytes u (calcChainRemoved zinItems parseRels)) := by
  unfold fill_workbook_repackage at h
  cases hrb : (zinItems.find? (fun it => it.1 = workbook_rels_path)).map Prod.snd with
  | none =>
    have hflag : calcChainRemoved zinItems parseRels = false := by
      simp [calcChainRemoved, hrb]
    rw [hflag]
    rw [hrb] at h
    exact ⟨none, (Option.some.inj h).symm⟩
  | some rb =>
    rw [hrb] at h
    cases hp : parseRels rb with
    | none =>
      have he : updated_rels_and_flag (some rb) parseRels serializeRels = none := by
        simp [updated_rels_and_flag, hp]
      rw [he] at h
      exact Option.noConfusion h
    | some rels =>
      cases hrem : rels.any isCalcChainRel with
      | false =>
        have hflag : calcChainRemoved zinItems parseRels = false := by
          simp [calcChainRemoved, hrb, hp, hrem]
        rw [hflag]
        have hrem2 : (remove_calc_chain_relationship rels).2 = false := hrem
        have he : updated_rels_and_flag (some rb) parseRels serializeRels =
            some (some rb, false) := by
          simp [updated_rels_and_flag, hp, hrem2]
        rw [he] at h
        exact ⟨some rb, (Option.some.inj h).symm⟩
      | true =>
        have hflag : calcChainRemoved zinItems parseRels = true := by
          simp [calcChainRemoved, hrb, hp, hrem]
        rw [hflag]
        have hrem2 : (remove_calc_chain_relationship rels).2 = true := hrem
        have he : updated_rels_and_flag (some rb) parseRels serializeRels =
            some (some (serializeRels (remove_calc_chain_relationship rels).1), true) := by
          simp [updated_rels_and_flag, hp, hrem2]
        rw [he] at h
        exact ⟨some (serializeRels (remove_calc_chain_relationship rels).1),
          (Option.some.inj h).symm⟩

/-- C6 (amended): every input part other than the worksheet, workbook and
relationships parts and `xl/calcChain.xml` is carried into the output
byte-for-byte; the worksheet and workbook parts are carried with their
mutated bytes; `xl/calcChain.xml` is dropped exactly when the relationships
part exists, parses, and contains a calc-chain relationship
(`calcChainRemoved`) — otherwise a stale `xl/calcChain.xml` input part is
kept unchanged. -/
theorem C6_archive_frame (zinItems : List (String × String))
    (sheet1Bytes workbookBytes : String)
    (parseRels : String → Option (List RelElem))
    (serializeRels : List RelElem → String)
    (out : List (String × String))
    (h : fill_workbook_repackage zinItems sheet1Bytes workbookBytes parseRels
          serializeRels = some out) :
    (∀ it ∈ zinItems, it.1 ≠ "xl/worksheets/sheet1.xml" → it.1 ≠ "xl/workbook.xml" →
        it.1 ≠ workbook_rels_path → it.1 ≠ "xl/calcChain.xml" → it ∈ out)
    ∧ (∀ it ∈ zinItems, it.1 = "xl/worksheets/sheet1.xml" → (it.1, sheet1Bytes) ∈ out)
    ∧ (∀ it ∈ zinItems, it.1 = "xl/workbook.xml" → (it.1, workbookBytes) ∈ out)
    ∧ (calcChainRemoved zinItems parseRels = true →
        ∀ p ∈ out, p.1 ≠ "xl/calcChain.xml")
    ∧ (calcChainRemoved zinItems parseRels = false →
        ∀ it ∈ zinItems, it.1 = "xl/calcChain.xml" → it ∈ out) := by
  obtain ⟨u, hout⟩ := fill_workbook_repackage_spec zinItems sheet1Bytes workbookBytes
    parseRels serializeRels out h
  subst hout
  refine ⟨?_, ?_, ?_, ?_, ?_⟩
  · intro it hmem h1 h2 h3 h4
    exact List.mem_filterMap.mpr ⟨it, hmem, by simp [repackF, h1, h2, h3, h4]⟩
  · intro it hmem h1
    exact List.mem_filterMap.mpr ⟨it, hmem, by simp [repackF, h1, workbook_rels_path]⟩
  · intro it hmem h1
    exact List.mem_filterMap.mpr ⟨it, hmem, by simp [repackF, h1, workbook_rels_path]⟩
  · intro hrem p hp
    obtain ⟨a, ha, hfa⟩ := List.mem_filterMap.mp hp
    rw [hrem] at hfa
    obtain ⟨hp1, hno⟩ := repackF_fst _ _ _ _ _ _ hfa
    intro hcc
    exact hno ⟨rfl, hp1 ▸ hcc⟩
  · intro hrem it hmem h1
    rw [hrem]
    exact List.mem_filterMap.mpr ⟨it, hmem, by simp [repackF, h1, workbook_rels_path]⟩

/-- C6 amended-claim witness: with a relationships part naming the
calc-chain type, an untouched part is carried over and the mutated worksheet
bytes are written. -/
theorem C6_archive_frame_witness :
    ("docProps/core.xml", "P") ∈
        [("docProps/core.xml", "P"), ("xl/_rels/workbook.xml.rels", "R2"),
         ("xl/worksheets/sheet1.xml", "S2")]
    ∧ ("xl/worksheets/sheet1.xml", "S2") ∈
        [("docProps/core.xml", "P"), ("xl/_rels/workbook.xml.rels", "R2"),
         ("xl/worksheets/sheet1.xml", "S2")] :=
  ⟨(C6_archive_frame
      [("docProps/core.xml", "P"), ("xl/calcChain.xml", "CC"),
       ("xl/_rels/workbook.xml.rels", "R"), ("xl/worksheets/sheet1.xml", "S")]
      "S2" "W2"
      (fun _ => some [{ tag := REL_TAG, attrs := [("Type", CALC_CHAIN_REL_TYPE)] }])
      (fun _ => "R2")
      [("docProps/core.xml", "P"), ("xl/_rels/workbook.xml.rels", "R2"),
       ("xl/worksheets/sheet1.xml", "S2")]
      (by decide)).1 ("docProps/core.xml", "P")
        (by decide) (by decide) (by decide) (by decide) (by decide),
   (C6_archive_frame
      [("docProps/core.xml", "P"), ("xl/calcChain.xml", "CC"),
       ("xl/_rels/workbook.xml.rels", "R"), ("xl/worksheets/sheet1.xml", "S")]
      "S2" "W2"
      (fun _ => some [{ tag := REL_TAG, attrs := [("Type", CALC_CHAIN_REL_TYPE)] }])
      (fun _ => "R2")
      [("docProps/core.xml", "P"), ("xl/_rels/workbook.xml.rels", "R2"),
       ("xl/worksheets/sheet1.xml", "S2")]
      (by decide)).2.1 ("xl/worksheets/sheet1.xml", "S") (by decide) rfl⟩

/-! ## C9 — numeric canonical form -/

/-- A digit character is never a decimal point. -/
theorem digitChar_ne_dot (n : Nat) : Nat.digitChar n ≠ '.' := by
  rcases Nat.lt_or_ge n 16 with h | h
  · interval_cases n <;> decide
  · unfold Nat.digitChar
    iterate 16 rw [if_neg (by omega)]
    decide

/-- Every character `Nat.toDigitsCore` prepends is a digit character. -/
theorem toDigitsCore_forall (b : Nat) (P : Char → Prop)
    (hP : ∀ m, P (Nat.digitChar m)) :
    ∀ (fuel n : Nat) (ds : List Char), (∀ c ∈ ds, P c) →
      ∀ c ∈ Nat.toDigitsCore b fuel n ds, P c := by
  intro fuel
  induction fuel with
  | zero => intro n ds hds c hc; exact hds c hc
  | succ f ih =>
    intro n ds hds c hc
    simp only [Nat.toDigitsCore] at hc
    by_cases h0 : n / b = 0
    · rw [if_pos h0] at hc
      rcases List.mem_cons.mp hc with h | h
      · exact h ▸ hP (n % b)
      · exact hds c h
    · rw [if_neg h0] at hc
      refine ih (n / b) (Nat.digitChar (n % b) :: ds) ?_ c hc
      intro x hx
      rcases List.mem_cons.mp hx with h | h
      · exact h ▸ hP (n % b)
      · exact hds x h

/-- No decimal point appears in a decimal digit string. -/
theorem toDigits_ne_dot (n : Nat) : ∀ c ∈ Nat.toDigits 10 n, ¬ c = '.' := by
  intro c hc
  exact toDigitsCore_forall 10 (fun x => ¬ x = '.') (fun m => digitChar_ne_dot m)
    (n + 1) n [] (fun x hx => absurd hx (List.not_mem_nil x)) c hc

/-- A decimal digit string is nonempty. -/
theorem toDigits_ne_nil (b n : Nat) : Nat.toDigits b n ≠ [] := by
  have key : ∀ (fuel m : Nat) (ds : List Char), ds ≠ [] ∨ 0 < fuel →
      Nat.toDigitsCore b fuel m ds ≠ [] := by
    intro fuel
    induction fuel with
    | zero =>
      intro m ds h
      rcases h with h | h
      · exact h
      · exact absurd h (by omega)
    | succ f ih =>
      intro m ds _
      simp only [Nat.toDigitsCore]
      by_cases h0 : m / b = 0
      · rw [if_pos h0]
        exact List.cons_ne_nil _ _
      · rw [if_neg h0]
        exact ih (m / b) (Nat.digitChar (m % b) :: ds) (Or.inl (List.cons_ne_nil _ _))
  exact key (n + 1) n [] (Or.inr (by omega))

/-- The first retained element of `dropWhile` fails the predicate. -/
theorem head_dropWhile_not {α : Type} (p : α → Bool) :
    ∀ (l : List α) (x : α), (l.dropWhile p).head? = some x → p x = false := by
  intro l
  induction l with
  | nil => intro x h; simp [List.dropWhile] at h
  | cons a t ih =>
    intro x h
    cases hp : p a with
    | true =>
      rw [List.dropWhile_cons_of_pos hp] at h
      exact ih x h
    | false =>
      rw [List.dropWhile_cons_of_neg (by simp [hp])] at h
      simp only [List.head?_cons, Option.some.injEq] at h
      rw [← h]
      exact hp

/-- After `rstrip(c)` the last character is never `c`. -/
theorem rstripChar_getLast_ne (c : Char) (cs : List Char) (x : Char)
    (h : (rstripChar c cs).getLast? = some x) : x ≠ c := by
  unfold rstripChar at h
  rw [List.getLast?_reverse] at h
  have hx := head_dropWhile_not (fun ch => ch = c) cs.reverse x h
  simpa using hx

/-- `rstrip(c)` strips nothing when the last character is not `c`. -/
theorem rstripChar_of_getLast_ne (c : Char) (cs : List Char) (x : Char)
    (hlast : cs.getLast? = some x) (hne : x ≠ c) : rstripChar c cs = cs := by
  have hrev : cs.reverse.head? = some x := by rw [List.head?_reverse]; exact hlast
  obtain ⟨t, ht⟩ : ∃ t, cs.reverse = x :: t := by
    cases hr : cs.reverse with
    | nil => rw [hr] at hrev; exact absurd hrev (by simp)
    | cons a t =>
      rw [hr] at hrev
      simp only [List.head?_cons, Option.some.injEq] at hrev
      exact ⟨t, by rw [hrev]⟩
  unfold rstripChar
  rw [ht, List.dropWhile_cons_of_neg (by simp [hne]), ← ht, List.reverse_reverse]

/-- Every string is its `rstrip(c)` followed by a run of `c`. -/
theorem rstripChar_decomp (c : Char) (cs : List Char) :
    ∃ n, cs = rstripChar c cs ++ List.replicate n c := by
  have h1 : ∀ b ∈ List.takeWhile (fun ch => ch = c) cs.reverse, b = c := by
    intro b hb
    have hbc := List.mem_takeWhile_imp hb
    simpa using hbc
  refine ⟨(List.takeWhile (fun ch => ch = c) cs.reverse).length, ?_⟩
  have h2 : (List.takeWhile (fun ch => ch = c) cs.reverse).reverse =
      List.replicate (List.takeWhile (fun ch => ch = c) cs.reverse).length c := by
    rw [List.eq_replicate_of_mem h1, List.reverse_replicate, List.length_replicate]
  calc cs = cs.reverse.reverse := (List.reverse_reverse cs).symm
    _ = (List.takeWhile (fun ch => ch = c) cs.reverse
          ++ List.dropWhile (fun ch => ch = c) cs.reverse).reverse := by
        rw [List.takeWhile_append_dropWhile]
    _ = (List.dropWhile (fun ch => ch = c) cs.reverse).reverse
          ++ (List.takeWhile (fun ch => ch = c) cs.reverse).reverse := by
        rw [List.reverse_append]
    _ = rstripChar c cs
          ++ List.replicate (List.takeWhile (fun ch => ch = c) cs.reverse).length c := by
        rw [h2]
        rfl

/-- `rstrip(c)` erases a trailing run of `c`. -/
theorem rstripChar_append_replicate (c : Char) (xs : List Char) (n : Nat) :
    rstripChar c (xs ++ List.replicate n c) = rstripChar c xs := by
  unfold rstripChar
  rw [List.reverse_append, List.reverse_replicate]
  congr 1
  induction n with
  | zero => rw [List.replicate_zero, List.nil_append]
  | succ m ih =>
    rw [List.replicate_succ, List.cons_append, List.dropWhile_cons_of_pos (by simp)]
    exact ih

/-- The `.10f` rendering splits as an optional sign, a nonempty integer-digit
block, the decimal point, and a fraction block free of further points. -/
theorem renderFixed10_decomp (v : Q) :
    ∃ sign I F, renderFixed10 v = sign ++ I ++ ['.'] ++ F
      ∧ (sign = [] ∨ sign = ['-']) ∧ I ≠ []
      ∧ (∀ x ∈ I, ¬ x = '.') ∧ (∀ x ∈ F, ¬ x = '.') := by
  refine ⟨_, _, _, rfl, ?_, ?_, ?_, ?_⟩
  · cases hn : v.isNeg <;> simp [hn]
  · exact toDigits_ne_nil 10 _
  · exact toDigits_ne_dot _
  · intro x hx
    unfold padLeftZeros at hx
    rcases List.mem_append.mp hx with h | h
    · rw [List.eq_of_mem_replicate h]
      decide
    · exact toDigits_ne_dot _ x h

/-- Stripping trailing zeros and then trailing points from a `.10f` rendering
yields a nonempty string that neither ends in `.` nor, when it still contains
a point, ends in `0`. -/
theorem stripped_render_ok (sign I F : List Char)
    (hsign : sign = [] ∨ sign = ['-']) (hI : I ≠ [])
    (hIdot : ∀ x ∈ I, ¬ x = '.') (hFdot : ∀ x ∈ F, ¬ x = '.') :
    rstripChar '.' (rstripChar '0' (sign ++ I ++ ['.'] ++ F)) ≠ []
    ∧ (rstripChar '.' (rstripChar '0' (sign ++ I ++ ['.'] ++ F))).getLast? ≠ some '.'
    ∧ ('.' ∈ rstripChar '.' (rstripChar '0' (sign ++ I ++ ['.'] ++ F)) →
        (rstripChar '.' (rstripChar '0' (sign ++ I ++ ['.'] ++ F))).getLast? ≠ some '0') := by
  obtain ⟨n, hF⟩ := rstripChar_decomp '0' F
  have hs : sign ++ I ++ ['.'] ++ F =
      (sign ++ I ++ ['.'] ++ rstripChar '0' F) ++ List.replicate n '0' := by
    conv_lhs => rw [hF]
    simp [List.append_assoc]
  rw [hs, rstripChar_append_replicate]
  rcases eq_or_ne (rstripChar '0' F) [] with hnil | hne
  · rw [hnil, List.append_nil]
    have hlast : (sign ++ I ++ ['.']).getLast? = some '.' := by
      rw [List.getLast?_append]
      rfl
    rw [rstripChar_of_getLast_ne '0' (sign ++ I ++ ['.']) '.' hlast (by decide)]
    have h1 : sign ++ I ++ ['.'] = (sign ++ I) ++ List.replicate 1 '.' := by simp
    rw [h1, rstripChar_append_replicate]
    obtain ⟨y, hy⟩ : ∃ y, I.getLast? = some y := by
      cases hIy : I.getLast? with
      | none => exact absurd (List.getLast?_eq_none_iff.mp hIy) hI
      | some y => exact ⟨y, rfl⟩
    have hydot : ¬ y = '.' := hIdot y (List.mem_of_getLast?_eq_some hy)
    have hlast2 : (sign ++ I).getLast? = some y := by
      rw [List.getLast?_append, hy]
      rfl
    rw [rstripChar_of_getLast_ne '.' (sign ++ I) y hlast2 hydot]
    refine ⟨?_, ?_, ?_⟩
    · intro hc
      rcases List.append_eq_nil.mp hc with ⟨_, h2⟩
      exact hI h2
    · rw [hlast2]
      intro hc
      exact hydot (Option.some.inj hc)
    · intro hdot
      exfalso
      rcases List.mem_append.mp hdot with h | h
      · rcases hsign with rfl | rfl
        · exact absurd h (List.not_mem_nil ('.' : Char))
        · have hd : ('.' : Char) = '-' := List.mem_singleton.mp h
          exact absurd hd (by decide)
      · exact hIdot '.' h rfl
  · obtain ⟨y, hy⟩ : ∃ y, (rstripChar '0' F).getLast? = some y := by
      cases hFy : (rstripChar '0' F).getLast? with
      | none => exact absurd (List.getLast?_eq_none_iff.mp hFy) hne
      | some y => exact ⟨y, rfl⟩
    have hy0 : y ≠ '0' := rstripChar_getLast_ne '0' F y hy
    have hyF : y ∈ F := by
      rw [hF]
      exact List.mem_append.mpr (Or.inl (List.mem_of_getLast?_eq_some hy))
    have hydot : ¬ y = '.' := hFdot y hyF
    have hlast : (sign ++ I ++ ['.'] ++ rstripChar '0' F).getLast? = some y := by
      rw [List.getLast?_append, hy]
      rfl
    rw [rstripChar_of_getLast_ne '0' _ y hlast hy0]
    rw [rstripChar_of_getLast_ne '.' _ y hlast hydot]
    refine ⟨?_, ?_, ?_⟩
    · intro hc
      rcases List.append_eq_nil.mp hc with ⟨_, h2⟩
      exact hne h2
    · rw [hlast]
      intro hc
      exact hydot (Option.some.inj hc)
    · intro _
      rw [hlast]
      intro hc
      exact hy0 (Option.some.inj hc)

/-- C9: the numeric cell text never ends in a decimal point; when it contains
a decimal point it does not end in a zero (so no trailing zeros after the
point); and the value zero renders as `"0"`. -/
theorem C9_numeric_canonical_form (v : Q) :
    (format_decimal_for_excel v).toList.getLast? ≠ some '.'
    ∧ ('.' ∈ (format_decimal_for_excel v).toList →
        (format_decimal_for_excel v).toList.getLast? ≠ some '0')
    ∧ format_decimal_for_excel (Q.ofInt 0) = "0" := by
  by_cases hz : (v.qabs).ltb (Q.mkd 1 (10 ^ 12)) = true
  · have h0 : format_decimal_for_excel v = "0" := by
      unfold format_decimal_for_excel
      rw [if_pos hz]
    rw [h0]
    exact ⟨by decide, by decide, by decide⟩
  · obtain ⟨sign, I, F, hr, hsign, hI, hIdot, hFdot⟩ := renderFixed10_decomp v
    obtain ⟨hne, hlast, hdot⟩ := stripped_render_ok sign I F hsign hI hIdot hFdot
    have houtput : format_decimal_for_excel v =
        ⟨rstripChar '.' (rstripChar '0' (sign ++ I ++ ['.'] ++ F))⟩ := by
      unfold format_decimal_for_excel
      rw [if_neg hz, hr]
      exact if_neg hne
    rw [houtput]
    exact ⟨hlast, hdot, by decide⟩

/-! ## C3 — overflow handling -/

/-- The inserted row is present after an ordered insert. -/
theorem mem_insert_row_in_order_self (x : Row) :
    ∀ rows : List Row, x ∈ insert_row_in_order rows x := by
  intro rows
  induction rows with
  | nil => exact List.mem_singleton.mpr rfl
  | cons rw rest ih =>
    unfold insert_row_in_order
    by_cases hx : x.r < rw.r
    · rw [if_pos hx]
      exact List.mem_cons_self _ _
    · rw [if_neg hx]
      exact List.mem_cons_of_mem _ ih

/-- Ordered insert keeps every existing row. -/
theorem mem_insert_row_in_order_of_mem (x y : Row) :
    ∀ rows : List Row, y ∈ rows → y ∈ insert_row_in_order rows x := by
  intro rows
  induction rows with
  | nil => intro hy; exact absurd hy (List.not_mem_nil y)
  | cons rw rest ih =>
    intro hy
    unfold insert_row_in_order
    by_cases hx : x.r < rw.r
    · rw [if_pos hx]
      exact List.mem_cons_of_mem _ hy
    · rw [if_neg hx]
      rcases List.mem_cons.mp hy with rfl | h2
      · exact List.mem_cons_self _ _
      · exact List.mem_cons_of_mem _ (ih h2)

/-- A successful clone keeps every existing row and adds a row carrying the
target row number. -/
theorem clone_template_row_mem (rows : List Row) (templateRow : Row) (targetRow : Int)
    (rows2 : List Row) (h : clone_template_row rows templateRow targetRow = some rows2) :
    (∀ y ∈ rows, y ∈ rows2) ∧ (∃ rw, rw ∈ rows2 ∧ rw.r = targetRow) := by
  simp only [clone_template_row] at h
  rcases hm : templateRow.cells.mapM (cloneCellForCopy targetRow (targetRow - templateRow.r))
    with _ | cells1
  · rw [hm] at h
    exact absurd h (by simp)
  · rw [hm] at h
    simp only [Option.bind_eq_bind, Option.some_bind, pure, Option.some.injEq] at h
    subst h
    constructor
    · intro y hy
      exact mem_insert_row_in_order_of_mem _ y rows hy
    · exact ⟨{ templateRow with r := targetRow, cells := cells1 },
        mem_insert_row_in_order_self _ rows, rfl⟩

/-- Over the clone loop: existing rows persist and every clone target row
number appears in the result. -/
theorem cloneFold_mem (templateRow : Row) (base : Int) :
    ∀ (idxs : List Nat) (rows rows2 : List Row),
      List.foldlM (fun rs (idx : Nat) => clone_template_row rs templateRow (base + (idx : Int)))
          rows idxs
        = some rows2 →
      (∀ y ∈ rows, y ∈ rows2) ∧
      (∀ idx ∈ idxs, ∃ rw, rw ∈ rows2 ∧ rw.r = base + (idx : Int)) := by
  intro idxs
  induction idxs with
  | nil =>
    intro rows rows2 h
    simp only [List.foldlM_nil, pure, Option.some.injEq] at h
    subst h
    exact ⟨fun y hy => hy, fun idx hidx => absurd hidx (List.not_mem_nil idx)⟩
  | cons i t ih =>
    intro rows rows2 h
    rw [List.foldlM_cons] at h
    cases hc : clone_template_row rows templateRow (base + (i : Int)) with
    | none =>
      rw [hc] at h
      simp at h
    | some rows1 =>
      rw [hc] at h
      simp only [Option.bind_eq_bind, Option.some_bind] at h
      obtain ⟨hpres, hclone⟩ := clone_template_row_mem rows templateRow _ rows1 hc
      obtain ⟨hpres2, htargets⟩ := ih rows1 rows2 h
      refine ⟨fun y hy => hpres2 y (hpres y hy), ?_⟩
      intro idx hidx
      rcases List.mem_cons.mp hidx with rfl | h2
      · obtain ⟨rw1, hrw1, hr⟩ := hclone
        exact ⟨rw1, hpres2 rw1 hrw1, hr⟩
      · exact htargets idx h2

/-- C3: when a company section overflows (`overflow > 0` and the mapped slot
list is nonempty), the overflow phase records the insertion point immediately
after the section's last insertion-mapped row, extends that section's slot
list with exactly the `overflow` new consecutive row numbers before any entry
is placed (so the later formula refresh and placement see the enlarged
range), proceeds by shifting all rows from that point down by `overflow` and
cloning the re-fetched last slot row once per new row, existing rows are
kept, and every new row number is present in the resulting sheet. -/
theorem C3_overflow_insertion (groupLen : String → Nat) (sheet : Sheet)
    (insertions : List (Int × Int)) (companySlots : List (String × List Int))
    (company : String) (baseSlots slots : List Int) (overflow lastSlot : Int)
    (hslots : slots = baseSlots.map (fun r => map_row_with_insertions r insertions))
    (hoverdef : overflow = (groupLen company : Int) - (slots.length : Int))
    (hlast : slots.getLast? = some lastSlot)
    (hover : 0 < overflow)
    (out : Sheet × List (Int × Int) × List (String × List Int))
    (h : processCompanySlots groupLen (sheet, insertions, companySlots)
        (company, baseSlots) = some out) :
    out.2.1 = insertions ++ [(lastSlot + 1, overflow)]
    ∧ out.2.2 = companySlots ++ [(company,
        slots ++ (List.range overflow.toNat).map (fun (idx : Nat) => lastSlot + 1 + (idx : Int)))]
    ∧ (∃ sheet1 templateRow,
        shift_rows_in_sheet
            { sheet with sheetData := (get_or_create_row sheet.sheetData lastSlot).2 }
            (lastSlot + 1) overflow = some sheet1
        ∧ sheet1.sheetData.find? (fun rw => rw.r = lastSlot) = some templateRow
        ∧ templateRow.r = lastSlot
        ∧ List.foldlM
            (fun rs (idx : Nat) => clone_template_row rs templateRow (lastSlot + 1 + (idx : Int)))
            sheet1.sheetData (List.range overflow.toNat) = some out.1.sheetData
        ∧ out.1.mergeCells = sheet1.mergeCells
        ∧ out.1.dimensionRef = sheet1.dimensionRef
        ∧ (∀ y ∈ sheet1.sheetData, y ∈ out.1.sheetData))
    ∧ (∀ idx < overflow.toNat, ∃ rw, rw ∈ out.1.sheetData
        ∧ rw.r = lastSlot + 1 + (idx : Int)) := by
  simp only [processCompanySlots] at h
  rw [← hslots, ← hoverdef, if_pos hover, hlast] at h
  rcases hget : get_or_create_row sheet.sheetData lastSlot with ⟨row0, rows1⟩
  simp only [hget, Option.bind_eq_bind, Option.some_bind] at h
  cases hshift : shift_rows_in_sheet { sheet with sheetData := rows1 }
      (lastSlot + 1) overflow with
  | none =>
    rw [hshift] at h
    simp at h
  | some sheet1 =>
    rw [hshift] at h
    simp only [Option.some_bind] at h
    cases hfind : sheet1.sheetData.find? (fun rw => rw.r = lastSlot) with
    | none =>
      rw [hfind] at h
      simp at h
    | some templateRow =>
      rw [hfind] at h
      simp only [Option.some_bind] at h
      cases hfold : List.foldlM
          (fun rs (idx : Nat) => clone_template_row rs templateRow (lastSlot + 1 + (idx : Int)))
          sheet1.sheetData (List.range overflow.toNat) with
      | none =>
        rw [hfold] at h
        simp at h
      | some rows2 =>
        rw [hfold] at h
        simp only [Option.some_bind, pure, Option.some.injEq] at h
        subst h
        obtain ⟨hpres, htargets⟩ := cloneFold_mem templateRow (lastSlot + 1)
          (List.range overflow.toNat) sheet1.sheetData rows2 hfold
        refine ⟨rfl, rfl, ⟨sheet1, templateRow, rfl, hfind, ?_, hfold, rfl, rfl, hpres⟩, ?_⟩
        · simpa using List.find?_some hfind
        · intro idx hidx
          exact htargets idx (List.mem_range.mpr hidx)

/-- C3 witness: a company with three roster entries and a single template
slot at row 5 records the insertion `(6, 2)` and the extended slot list
`[5, 6, 7]`, and the output sheet holds rows 6 and 7. -/
theorem C3_overflow_insertion_witness :
    (({ sheetData := [{ r := 5, attrs := [], cells := [] },
                      { r := 6, attrs := [], cells := [] },
                      { r := 7, attrs := [], cells := [] }],
        mergeCells := none, dimensionRef := none },
      [((6 : Int), (2 : Int))],
      [("co", [(5 : Int), 6, 7])]) :
        Sheet × List (Int × Int) × List (String × List Int)).2.1
      = [] ++ [(5 + 1, 2)] :=
  (C3_overflow_insertion (fun c => if c = "co" then 3 else 0)
    { sheetData := [], mergeCells := none, dimensionRef := none }
    [] [] "co" [5] [5] 2 5 (by decide) (by decide) (by decide) (by decide)
    ({ sheetData := [{ r := 5, attrs := [], cells := [] },
                     { r := 6, attrs := [], cells := [] },
                     { r := 7, attrs := [], cells := [] }],
       mergeCells := none, dimensionRef := none },
     [((6 : Int), (2 : Int))],
     [("co", [(5 : Int), 6, 7])])
    (by decide)).1

/-! ## C7 — fuzzy dual gate -/

/-- Normalization produces a positive denominator and preserves the value. -/
theorem Q.norm_spec (n d : Int) (hd : d ≠ 0) :
    0 < (Q.norm n d).den ∧ (Q.norm n d).val = (n : ℚ) / (d : ℚ) := by
  simp only [Q.norm, if_neg hd]
  set s : Int := if d < 0 then -1 else 1 with hs
  have hsval : s = -1 ∨ s = 1 := by
    rw [hs]
    split_ifs <;> simp
  have hsne : s ≠ 0 := by rcases hsval with h | h <;> simp [h]
  have hd1 : 0 < s * d := by
    rw [hs]
    split_ifs with hneg
    · nlinarith
    · have h0 : 0 < d := lt_of_le_of_ne (le_of_not_lt hneg) (Ne.symm hd)
      nlinarith
  have hgne : (((s * n).gcd (s * d) : Nat) : Int) ≠ 0 := by
    intro hzero
    have hz : (s * n).gcd (s * d) = 0 := by exact_mod_cast hzero
    have hsd := (Int.gcd_eq_zero_iff.mp hz).2
    exact (ne_of_gt hd1) hsd
  rw [if_neg hgne]
  have hgpos : 0 < (((s * n).gcd (s * d) : Nat) : Int) :=
    lt_of_le_of_ne (by exact_mod_cast Nat.zero_le _) (Ne.symm hgne)
  have hdvdn : (((s * n).gcd (s * d) : Nat) : Int) ∣ s * n := Int.gcd_dvd_left
  have hdvdd : (((s * n).gcd (s * d) : Nat) : Int) ∣ s * d := Int.gcd_dvd_right
  constructor
  · show 0 < Int.ediv (s * d) (((s * n).gcd (s * d) : Nat) : Int)
    exact Int.ediv_pos_of_pos_of_dvd hd1 (le_of_lt hgpos) hdvdd
  · show (Int.ediv (s * n) (((s * n).gcd (s * d) : Nat) : Int) : ℚ) /
        (Int.ediv (s * d) (((s * n).gcd (s * d) : Nat) : Int) : ℚ) = (n : ℚ) / (d : ℚ)
    rw [show Int.ediv (s * n) (((s * n).gcd (s * d) : Nat) : Int)
        = s * n / (((s * n).gcd (s * d) : Nat) : Int) from rfl]
    rw [show Int.ediv (s * d) (((s * n).gcd (s * d) : Nat) : Int)
        = s * d / (((s * n).gcd (s * d) : Nat) : Int) from rfl]
    rw [Int.cast_div_charZero hdvdn, Int.cast_div_charZero hdvdd]
    have hgq : ((((s * n).gcd (s * d) : Nat) : Int) : ℚ) ≠ 0 := Int.cast_ne_zero.mpr hgne
    have hsq : ((s : Int) : ℚ) ≠ 0 := Int.cast_ne_zero.mpr hsne
    have hdq : ((d : Int) : ℚ) ≠ 0 := Int.cast_ne_zero.mpr hd
    have hsdq : (((s * d : Int)) : ℚ) ≠ 0 := Int.cast_ne_zero.mpr (ne_of_gt hd1)
    push_cast at hsdq hgq ⊢
    rw [div_div_div_cancel_right₀ hgq, mul_div_mul_left _ _ hsq]

/-- `a ≤ b` by cross-multiplication agrees with the rational values. -/
theorem Q.leb_iff (a b : Q) (ha : 0 < a.den) (hb : 0 < b.den) :
    Q.leb a b = true ↔ a.val ≤ b.val := by
  unfold Q.leb Q.val
  rw [decide_eq_true_eq,
    div_le_div_iff (by exact_mod_cast ha) (by exact_mod_cast hb)]
  exact ⟨fun h => by exact_mod_cast h, fun h => by exact_mod_cast h⟩

/-- `a < b` by cross-multiplication agrees with the rational values. -/
theorem Q.ltb_iff (a b : Q) (ha : 0 < a.den) (hb : 0 < b.den) :
    Q.ltb a b = true ↔ a.val < b.val := by
  unfold Q.ltb Q.val
  rw [decide_eq_true_eq,
    div_lt_div_iff (by exact_mod_cast ha) (by exact_mod_cast hb)]
  exact ⟨fun h => by exact_mod_cast h, fun h => by exact_mod_cast h⟩

/-- `a = b` by cross-multiplication agrees with the rational values. -/
theorem Q.eqb_iff (a b : Q) (ha : 0 < a.den) (hb : 0 < b.den) :
    Q.eqb a b = true ↔ a.val = b.val := by
  unfold Q.eqb Q.val
  rw [decide_eq_true_eq,
    div_eq_div_iff (Int.cast_ne_zero.mpr (ne_of_gt ha)) (Int.cast_ne_zero.mpr (ne_of_gt hb))]
  exact ⟨fun h => by exact_mod_cast h, fun h => by exact_mod_cast h⟩

/-- Subtraction: positive denominator and the expected value. -/
theorem Q.sub_spec (a b : Q) (ha : 0 < a.den) (hb : 0 < b.den) :
    0 < (a.sub b).den ∧ (a.sub b).val = a.val - b.val := by
  have h := Q.norm_spec (a.num * b.den - b.num * a.den) (a.den * b.den)
    (ne_of_gt (mul_pos ha hb))
  refine ⟨h.1, ?_⟩
  have h2 : (a.sub b).val =
      ((a.num * b.den - b.num * a.den : ℤ) : ℚ) / ((a.den * b.den : ℤ) : ℚ) := h.2
  rw [h2]
  unfold Q.val
  have haq : ((a.den : ℤ) : ℚ) ≠ 0 := Int.cast_ne_zero.mpr (ne_of_gt ha)
  have hbq : ((b.den : ℤ) : ℚ) ≠ 0 := Int.cast_ne_zero.mpr (ne_of_gt hb)
  push_cast
  field_simp
  ring

/-- The value-level sort order is transitive. -/
theorem scoreNameLe_trans (a b c : Q × String) (hab : scoreNameLe a b = true)
    (hbc : scoreNameLe b c = true) : scoreNameLe a c = true := by
  simp only [scoreNameLe, decide_eq_true_eq] at hab hbc ⊢
  rcases hab with h | ⟨he, hn⟩
  · rcases hbc with h2 | ⟨he2, hn2⟩
    · exact Or.inl (lt_trans h2 h)
    · exact Or.inl (lt_of_eq_of_lt he2 h)
  · rcases hbc with h2 | ⟨he2, hn2⟩
    · exact Or.inl (lt_of_lt_of_eq h2 he)
    · refine Or.inr ⟨he2.trans he, ?_⟩
      have hn1 : b.2 ≤ a.2 := le_iff_lt_or_eq.mpr hn
      have hn3 : c.2 ≤ b.2 := le_iff_lt_or_eq.mpr hn2
      exact le_iff_lt_or_eq.mp (le_trans hn3 hn1)

/-- The value-level sort order is total. -/
theorem scoreNameLe_total (a b : Q × String) :
    scoreNameLe a b || scoreNameLe b a := by
  simp only [scoreNameLe, Bool.or_eq_true, decide_eq_true_eq]
  rcases lt_trichotomy a.1.val b.1.val with h | h | h
  · exact Or.inr (Or.inl h)
  · rcases lt_trichotomy a.2 b.2 with hn | hn | hn
    · exact Or.inr (Or.inr ⟨h, Or.inl hn⟩)
    · exact Or.inl (Or.inr ⟨h.symm, Or.inr hn.symm⟩)
    · exact Or.inl (Or.inr ⟨h.symm, Or.inl hn⟩)
  · exact Or.inl (Or.inl h)

/-- On positive denominators the cross-multiplication sort order agrees with
the value-level one. -/
theorem scoreNameLe_agrees (a b : Q × String) (ha : 0 < a.1.den) (hb : 0 < b.1.den) :
    (Q.ltb b.1 a.1 || (Q.eqb b.1 a.1 && decide (b.2 < a.2 ∨ b.2 = a.2)))
      = scoreNameLe a b := by
  rw [Bool.eq_iff_iff]
  simp only [Bool.or_eq_true, Bool.and_eq_true, decide_eq_true_eq, scoreNameLe]
  rw [Q.ltb_iff b.1 a.1 hb ha, Q.eqb_iff b.1 a.1 hb ha]

/-- The fuzzy-pass candidate names are exactly the unclaimed workbook
names. -/
theorem fuzzyScored_names (ratio : String → String → Q) (nfkd : Char → List Char)
    (w used : List String) (ns : String) :
    (fuzzyScored ratio nfkd w used ns).map Prod.snd
      = w.filter (fun x => ¬ used.contains x) := by
  simp only [fuzzyScored]
  rw [List.map_map]
  exact List.map_id _

/-- With distinct workbook names, the fuzzy-pass entries carry distinct
names. -/
theorem fuzzyScored_snd_nodup (ratio : String → String → Q) (nfkd : Char → List Char)
    (w used : List String) (ns : String) (hnd : w.Nodup) :
    ((fuzzyScored ratio nfkd w used ns).map Prod.snd).Nodup := by
  rw [fuzzyScored_names]
  exact hnd.filter _

/-- Every fuzzy-pass score has a positive denominator when the similarity
ratio does. -/
theorem fuzzyScored_den_pos (ratio : String → String → Q) (nfkd : Char → List Char)
    (w used : List String) (ns : String)
    (hr : ∀ a b, 0 < (ratio a b).den) :
    ∀ p ∈ fuzzyScored ratio nfkd w used ns, 0 < p.1.den := by
  intro p hp
  simp only [fuzzyScored] at hp
  obtain ⟨wn, _, hf⟩ := List.mem_map.mp hp
  have hadd : ∀ x y : Q, 0 < x.den → 0 < y.den → 0 < (x.add y).den := fun x y hx hy =>
    (Q.norm_spec (x.num * y.den + y.num * x.den) (x.den * y.den)
      (ne_of_gt (mul_pos hx hy))).1
  have h8 : 0 < (Q.mkd 8 100).den := (Q.norm_spec 8 100 (by norm_num)).1
  have h5 : 0 < (Q.mkd 5 100).den := (Q.norm_spec 5 100 (by norm_num)).1
  rw [← hf]
  dsimp only
  split_ifs with h1 h2 h3
  · exact hadd _ _ (hadd _ _ (hr _ _) h8) h5
  · exact hadd _ _ (hr _ _) h5
  · exact hadd _ _ (hr _ _) h8
  · exact hr _ _

/-- On positive-denominator scores the descending sort is the value-level
merge sort. -/
theorem sortScoredDesc_eq (scored : List (Q × String))
    (h : ∀ p ∈ scored, 0 < p.1.den) :
    sortScoredDesc scored = scored.mergeSort scoreNameLe := by
  unfold sortScoredDesc
  have hmap := @List.map_mergeSort (Q × String) (Q × String)
    (fun a b => Q.ltb b.1 a.1 || (Q.eqb b.1 a.1 && decide (b.2 < a.2 ∨ b.2 = a.2)))
    scoreNameLe id scored
    (fun a ha b hb => scoreNameLe_agrees a b (h a ha) (h b hb))
  simpa using hmap

/-- The sorted score list is pairwise descending in value order. -/
theorem sortScoredDesc_sorted (scored : List (Q × String))
    (h : ∀ p ∈ scored, 0 < p.1.den) :
    (sortScoredDesc scored).Pairwise (fun a b => scoreNameLe a b = true) := by
  rw [sortScoredDesc_eq scored h]
  exact List.sorted_mergeSort scoreNameLe_trans scoreNameLe_total scored

/-- C7: for a query that reaches the fuzzy pass (neither narrowing pass
found a unique candidate), a candidate is chosen exactly when it carries the
top fuzzy score (similarity ratio plus `+0.08` exact-last-token and `+0.05`
exact-first-token bonuses) among the unclaimed candidates, that score is at
least `0.78`, and every other unclaimed candidate scores at least `0.03`
below it; otherwise the query is left unmatched.  Scores are compared as
exact rationals; the similarity ratio is assumed well-formed (positive
denominators) and the workbook names distinct. -/
theorem C7_fuzzy_dual_gate (ratio : String → String → Q) (nfkd : Char → List Char)
    (workbookNames used : List String) (sourceName c : String)
    (hr : ∀ a b, 0 < (ratio a b).den)
    (hnd : workbookNames.Nodup)
    (hex : ((workbookNames.filter (fun w =>
        normalize_name nfkd w = normalize_name nfkd sourceName)).filter
        (fun x => ¬ used.contains x)).length ≠ 1)
    (hfl : ((workbookNames.filter (fun w =>
        name_first_last (normalize_name nfkd w) =
          name_first_last (normalize_name nfkd sourceName))).filter
        (fun x => ¬ used.contains x)).length ≠ 1) :
    chooseCandidate ratio nfkd workbookNames used sourceName = some c
    ↔ ∃ bs, (bs, c) ∈ fuzzyScored ratio nfkd workbookNames used
          (normalize_name nfkd sourceName)
        ∧ (∀ p ∈ fuzzyScored ratio nfkd workbookNames used
            (normalize_name nfkd sourceName), Q.leb p.1 bs = true)
        ∧ (Q.mkd 78 100).leb bs = true
        ∧ (∀ p ∈ fuzzyScored ratio nfkd workbookNames used
            (normalize_name nfkd sourceName), p.2 ≠ c →
            Q.leb p.1 (bs.sub (Q.mkd 3 100)) = true) := by
  set fz := fuzzyScored ratio nfkd workbookNames used (normalize_name nfkd sourceName)
    with hfz
  have hden : ∀ p ∈ fz, 0 < p.1.den := by
    rw [hfz]
    exact fuzzyScored_den_pos ratio nfkd workbookNames used _ hr
  have hsnd : (fz.map Prod.snd).Nodup := by
    rw [hfz]
    exact fuzzyScored_snd_nodup ratio nfkd workbookNames used _ hnd
  have hsorted := sortScoredDesc_sorted fz hden
  have hmemiff : ∀ p : Q × String, p ∈ sortScoredDesc fz ↔ p ∈ fz := by
    intro p
    unfold sortScoredDesc
    exact List.mem_mergeSort
  have hperm : List.Perm (sortScoredDesc fz) fz := by
    unfold sortScoredDesc
    exact List.mergeSort_perm fz _
  have hsndsorted : ((sortScoredDesc fz).map Prod.snd).Nodup :=
    ((hperm.map Prod.snd).nodup_iff).mpr hsnd
  have h3den : 0 < (Q.mkd 3 100).den := (Q.norm_spec 3 100 (by norm_num)).1
  have h3val : (Q.mkd 3 100).val = 3 / 100 := by
    have h : (Q.mkd 3 100).val = ((3 : ℤ) : ℚ) / ((100 : ℤ) : ℚ) :=
      (Q.norm_spec 3 100 (by norm_num)).2
    rw [h]
    norm_num
  have h78den : 0 < (Q.mkd 78 100).den := (Q.norm_spec 78 100 (by norm_num)).1
  have h78val : (Q.mkd 78 100).val = 78 / 100 := by
    have h : (Q.mkd 78 100).val = ((78 : ℤ) : ℚ) / ((100 : ℤ) : ℚ) :=
      (Q.norm_spec 78 100 (by norm_num)).2
    rw [h]
    norm_num
  have hcc : chooseCandidate ratio nfkd workbookNames used sourceName =
      (match sortScoredDesc fz with
       | [] => none
       | (bestScore, bestName) :: rest =>
         if (Q.mkd 78 100).leb bestScore ∧
             (Q.mkd 3 100).leb (bestScore.sub (match rest with
               | [] => Q.ofInt 0
               | (s2, _) :: _ => s2)) then some bestName
         else none) := by
    rw [hfz]
    simp only [chooseCandidate]
    rw [if_neg hex, if_neg hfl]
  rw [hcc]
  constructor
  · intro h
    split at h
    · exact absurd h (by simp)
    · rename_i bs bn rest hsc
      split_ifs at h with hcond
      obtain ⟨hg1, hg2⟩ := hcond
      have hbn : bn = c := Option.some.inj h
      subst hbn
      have hhead : (bs, bn) ∈ fz := (hmemiff _).mp (by rw [hsc]; exact List.mem_cons_self _ _)
      have hbsden : 0 < bs.den := hden _ hhead
      rw [hsc] at hsorted
      have hpw := List.pairwise_cons.mp hsorted
      refine ⟨bs, hhead, ?_, hg1, ?_⟩
      · intro p hp
        have hpden : 0 < p.1.den := hden p hp
        have hps : p ∈ sortScoredDesc fz := (hmemiff p).mpr hp
        rw [hsc] at hps
        rcases List.mem_cons.mp hps with rfl | hrest
        · have hrefl : Q.leb bs bs = true := by
            rw [Q.leb_iff bs bs hbsden hbsden]
          exact hrefl
        · have hle := hpw.1 p hrest
          have hval : p.1.val ≤ bs.val := by
            simp only [scoreNameLe, decide_eq_true_eq] at hle
            rcases hle with h2 | ⟨h2, _⟩
            · exact le_of_lt h2
            · exact le_of_eq h2
          rw [Q.leb_iff _ _ hpden hbsden]
          exact hval
      · intro p hp hpne
        have hpden : 0 < p.1.den := hden p hp
        have hps : p ∈ sortScoredDesc fz := (hmemiff p).mpr hp
        rw [hsc] at hps
        rcases List.mem_cons.mp hps with rfl | hrest
        · exact absurd rfl hpne
        · cases rest with
          | nil => exact absurd hrest (List.not_mem_nil p)
          | cons second rest2 =>
            obtain ⟨s2, n2⟩ := second
            have hsmem : (s2, n2) ∈ fz := (hmemiff _).mp
              (by rw [hsc]; exact List.mem_cons_of_mem _ (List.mem_cons_self _ _))
            have hs2den : 0 < s2.den := hden _ hsmem
            have hsub := Q.sub_spec bs s2 hbsden hs2den
            have hg2v : (3 : ℚ) / 100 ≤ bs.val - s2.val := by
              have hx := (Q.leb_iff (Q.mkd 3 100) (bs.sub s2) h3den hsub.1).mp hg2
              rw [h3val, hsub.2] at hx
              exact hx
            have hple : p.1.val ≤ s2.val := by
              rcases List.mem_cons.mp hrest with rfl | hrest2
              · exact le_refl _
              · have hpw2 := List.pairwise_cons.mp hpw.2
                have hle := hpw2.1 p hrest2
                simp only [scoreNameLe, decide_eq_true_eq] at hle
                rcases hle with h2 | ⟨h2, _⟩
                · exact le_of_lt h2
                · exact le_of_eq h2
            have hsubspec := Q.sub_spec bs (Q.mkd 3 100) hbsden h3den
            rw [Q.leb_iff _ _ hpden hsubspec.1, hsubspec.2, h3val]
            linarith
  · rintro ⟨bs, hmem, htop, hg1, hsep⟩
    split
    · rename_i hsc
      exfalso
      have hx := (hmemiff (bs, c)).mpr hmem
      rw [hsc] at hx
      exact List.not_mem_nil _ hx
    · rename_i b0 n0 rest hsc
      have hb0mem : (b0, n0) ∈ fz := (hmemiff _).mp (by rw [hsc]; exact List.mem_cons_self _ _)
      have hb0den : 0 < b0.den := hden _ hb0mem
      have hbsden : 0 < bs.den := hden _ hmem
      rw [hsc] at hsorted
      have hpw := List.pairwise_cons.mp hsorted
      by_cases hn0 : n0 = c
      · subst hn0
        have hb0bs : (b0, n0) = (bs, n0) :=
          List.inj_on_of_nodup_map hsnd hb0mem hmem rfl
        have hb0bs2 : b0 = bs := congrArg Prod.fst hb0bs
        subst hb0bs2
        cases rest with
        | nil =>
          have h0den : 0 < (Q.ofInt 0).den := by decide
          have hsub := Q.sub_spec b0 (Q.ofInt 0) hb0den h0den
          have h0val : (Q.ofInt 0).val = 0 := by simp [Q.ofInt, Q.val]
          have hg2 : (Q.mkd 3 100).leb (b0.sub (Q.ofInt 0)) = true := by
            rw [Q.leb_iff _ _ h3den hsub.1, h3val, hsub.2, h0val]
            have hg1v := (Q.leb_iff (Q.mkd 78 100) b0 h78den hb0den).mp hg1
            rw [h78val] at hg1v
            linarith
          rw [if_pos ⟨hg1, hg2⟩]
        | cons second rest2 =>
          obtain ⟨s2, n2⟩ := second
          have hsmem : (s2, n2) ∈ fz := (hmemiff _).mp
            (by rw [hsc]; exact List.mem_cons_of_mem _ (List.mem_cons_self _ _))
          have hs2den : 0 < s2.den := hden _ hsmem
          have hnodups := hsndsorted
          rw [hsc] at hnodups
          simp only [List.map_cons, List.nodup_cons] at hnodups
          have hn2 : n2 ≠ n0 := by
            intro he
            exact hnodups.1 (List.mem_cons.mpr (Or.inl he.symm))
          have hsepv := hsep (s2, n2) hsmem hn2
          have hsubsep := Q.sub_spec b0 (Q.mkd 3 100) hb0den h3den
          have hsepq := (Q.leb_iff s2 (b0.sub (Q.mkd 3 100)) hs2den hsubsep.1).mp hsepv
          rw [hsubsep.2, h3val] at hsepq
          have hsub := Q.sub_spec b0 s2 hb0den hs2den
          have hg2 : (Q.mkd 3 100).leb (b0.sub s2) = true := by
            rw [Q.leb_iff _ _ h3den hsub.1, h3val, hsub.2]
            linarith
          rw [if_pos ⟨hg1, hg2⟩]
      · exfalso
        have hcmem : (bs, c) ∈ (b0, n0) :: rest := by
          have hx := (hmemiff (bs, c)).mpr hmem
          rw [hsc] at hx
          exact hx
        have hin_rest : (bs, c) ∈ rest := by
          rcases List.mem_cons.mp hcmem with heq | h2
          · exact absurd (congrArg Prod.snd heq).symm hn0
          · exact h2
        have hle := hpw.1 _ hin_rest
        simp only [scoreNameLe, decide_eq_true_eq] at hle
        have hbs_le_b0 : bs.val ≤ b0.val := by
          rcases hle with h2 | ⟨h2, _⟩
          · exact le_of_lt h2
          · exact le_of_eq h2
        have hsepb := hsep (b0, n0) hb0mem hn0
        have hsub := Q.sub_spec bs (Q.mkd 3 100) hbsden h3den
        have hsepv := (Q.leb_iff b0 (bs.sub (Q.mkd 3 100)) hb0den hsub.1).mp hsepb
        rw [hsub.2, h3val] at hsepv
        linarith

/-- C7 witness: a concrete fuzzy-pass query is matched to the clearly best
candidate through the dual gate. -/
theorem C7_fuzzy_dual_gate_witness :
    chooseCandidate (fun _ b => if b = "ann b" then Q.mkd 9 10 else Q.mkd 1 10)
      (fun c => [c]) ["ann b", "carl d"] [] "xx yy" = some "ann b" :=
  (C7_fuzzy_dual_gate (fun _ b => if b = "ann b" then Q.mkd 9 10 else Q.mkd 1 10)
    (fun c => [c]) ["ann b", "carl d"] [] "xx yy" "ann b"
    (fun a b => by by_cases h : b = "ann b" <;> simp [h] <;> decide)
    (by decide) (by decide) (by decide)).mpr
    ⟨Q.mkd 9 10, by decide, by decide, by decide, by decide⟩

/-! ## C8 — matching partition -/

/-- `replaceFirst` leaves a non-matching element in place. -/
theorem mem_replaceFirst_of_neg {α : Type} (p : α → Bool) (f : α → α) :
    ∀ (l : List α) (y : α), y ∈ l → p y = false → y ∈ replaceFirst p f l := by
  intro l
  induction l with
  | nil => intro y hy _; exact absurd hy (List.not_mem_nil y)
  | cons a t ih =>
    intro y hy hpy
    unfold replaceFirst
    by_cases hp : p a = true
    · rw [if_pos hp]
      rcases List.mem_cons.mp hy with rfl | h
      · rw [hpy] at hp
        exact absurd hp (by simp)
      · exact List.mem_cons_of_mem _ h
    · rw [if_neg hp]
      rcases List.mem_cons.mp hy with rfl | h
      · exact List.mem_cons_self _ _
      · exact List.mem_cons_of_mem _ (ih y h hpy)

/-- Every element of `replaceFirst p f l` is an original element or the image
of one. -/
theorem mem_replaceFirst {α : Type} (p : α → Bool) (f : α → α) :
    ∀ (l : List α) (y : α), y ∈ replaceFirst p f l → y ∈ l ∨ ∃ x, x ∈ l ∧ y = f x := by
  intro l
  induction l with
  | nil => intro y hy; exact Or.inl hy
  | cons a t ih =>
    intro y hy
    unfold replaceFirst at hy
    by_cases hp : p a = true
    · rw [if_pos hp] at hy
      rcases List.mem_cons.mp hy with rfl | h
      · exact Or.inr ⟨a, List.mem_cons_self _ _, rfl⟩
      · exact Or.inl (List.mem_cons_of_mem _ h)
    · rw [if_neg hp] at hy
      rcases List.mem_cons.mp hy with rfl | h
      · exact Or.inl (List.mem_cons_self _ _)
      · rcases ih y h with h2 | ⟨x, hx, hyx⟩
        · exact Or.inl (List.mem_cons_of_mem _ h2)
        · exact Or.inr ⟨x, List.mem_cons_of_mem _ hx, hyx⟩

/-- When some element matches, the replacement value is in the result. -/
theorem replaceFirst_const_mem {α : Type} (p : α → Bool) (y : α) :
    ∀ l : List α, l.any p = true → y ∈ replaceFirst p (fun _ => y) l := by
  intro l
  induction l with
  | nil => intro h; simp at h
  | cons a t ih =>
    intro h
    unfold replaceFirst
    by_cases hp : p a = true
    · rw [if_pos hp]
      exact List.mem_cons_self _ _
    · rw [if_neg hp]
      have h2 : t.any p = true := by
        rcases List.any_eq_true.mp h with ⟨x, hx, hpx⟩
        rcases List.mem_cons.mp hx with rfl | hmem
        · exact absurd hpx hp
        · exact List.any_eq_true.mpr ⟨x, hmem, hpx⟩
      exact List.mem_cons_of_mem _ (ih h2)

/-- The dict write `mp[k] = v` leaves the pair `(k, v)` in the mapping. -/
theorem mem_assocSet_self (k v : String) (l : List (String × String)) :
    (k, v) ∈ assocSet k v l := by
  unfold assocSet
  by_cases h : l.any (fun p => p.1 = k) = true
  · rw [if_pos h]
    exact replaceFirst_const_mem _ _ l h
  · rw [if_neg h]
    exact List.mem_append.mpr (Or.inr (List.mem_cons_self _ _))

/-- Key presence survives any dict write. -/
theorem assocSet_preserves_key (k1 v1 : String) (l : List (String × String))
    (s : String) (h : ∃ c, (s, c) ∈ l) : ∃ c, (s, c) ∈ assocSet k1 v1 l := by
  by_cases hk : s = k1
  · subst hk
    exact ⟨v1, mem_assocSet_self s v1 l⟩
  · obtain ⟨c, hc⟩ := h
    refine ⟨c, ?_⟩
    unfold assocSet
    by_cases ha : l.any (fun p => p.1 = k1) = true
    · rw [if_pos ha]
      exact mem_replaceFirst_of_neg _ _ l (s, c) hc (by simp [hk])
    · rw [if_neg ha]
      exact List.mem_append.mpr (Or.inl hc)

/-- Membership after a dict write: an old pair or the written pair. -/
theorem mem_assocSet (k v : String) (l : List (String × String)) (y : String × String)
    (hy : y ∈ assocSet k v l) : y ∈ l ∨ y = (k, v) := by
  unfold assocSet at hy
  by_cases ha : l.any (fun p => p.1 = k) = true
  · rw [if_pos ha] at hy
    rcases mem_replaceFirst _ _ l y hy with h | ⟨x, _, hyx⟩
    · exact Or.inl h
    · exact Or.inr hyx
  · rw [if_neg ha] at hy
    rcases List.mem_append.mp hy with h | h
    · exact Or.inl h
    · exact Or.inr (List.mem_singleton.mp h)

/-- Replacing the claimed pair of an existing key by a fresh value keeps the
mapping values pairwise distinct. -/
theorem nodup_snd_replaceFirst (k c : String) :
    ∀ mp : List (String × String), (mp.map Prod.snd).Nodup → c ∉ mp.map Prod.snd →
      ((replaceFirst (fun p => p.1 = k) (fun _ => (k, c)) mp).map Prod.snd).Nodup := by
  intro mp
  induction mp with
  | nil => intro _ _; simp [replaceFirst]
  | cons a t ih =>
    intro hnd hc
    simp only [List.map_cons, List.nodup_cons] at hnd
    obtain ⟨ha2, hndt⟩ := hnd
    have hc2 : ¬ c = a.2 ∧ c ∉ t.map Prod.snd := by
      simp only [List.map_cons, List.mem_cons] at hc
      push_neg at hc
      exact hc
    unfold replaceFirst
    by_cases hp : a.1 = k
    · rw [if_pos (by simp [hp])]
      simp only [List.map_cons, List.nodup_cons]
      exact ⟨hc2.2, hndt⟩
    · rw [if_neg (by simp [hp])]
      simp only [List.map_cons, List.nodup_cons]
      refine ⟨?_, ih hndt hc2.2⟩
      intro hmem
      obtain ⟨y, hy, hysnd⟩ := List.mem_map.mp hmem
      rcases mem_replaceFirst _ _ t y hy with h | ⟨x, _, hyx⟩
      · exact ha2 (List.mem_map.mpr ⟨y, h, hysnd⟩)
      · rw [hyx] at hysnd
        exact hc2.1 hysnd

/-- A dict write of a value not yet claimed keeps the mapping values pairwise
distinct. -/
theorem nodup_snd_assocSet (k c : String) (mp : List (String × String))
    (hnd : (mp.map Prod.snd).Nodup) (hc : c ∉ mp.map Prod.snd) :
    ((assocSet k c mp).map Prod.snd).Nodup := by
  unfold assocSet
  by_cases ha : mp.any (fun p => p.1 = k) = true
  · rw [if_pos ha]
    exact nodup_snd_replaceFirst k c mp hnd hc
  · rw [if_neg ha]
    rw [List.map_append]
    rw [List.nodup_append]
    refine ⟨hnd, List.nodup_singleton c, ?_⟩
    intro x hx hxc
    have hxc2 : x = c := by simpa using hxc
    rw [hxc2] at hx
    exact hc hx

/-- `head?` of a list selects a member. -/
theorem mem_of_head?_some {α : Type} (l : List α) (a : α) (h : l.head? = some a) :
    a ∈ l := by
  obtain ⟨ys, rfl⟩ := List.head?_eq_some_iff.mp h
  exact List.mem_cons_self a ys

/-- Every candidate `match_names` chooses is a workbook name not yet claimed
by an earlier query. -/
theorem chooseCandidate_spec (ratio : String → String → Q) (nfkd : Char → List Char)
    (w used : List String) (s c : String)
    (h : chooseCandidate ratio nfkd w used s = some c) :
    c ∈ w ∧ c ∉ used := by
  simp only [chooseCandidate] at h
  split_ifs at h with h1 h2
  · have hc := mem_of_head?_some _ _ h
    have h3 := List.mem_filter.mp hc
    have h4 := List.mem_filter.mp h3.1
    exact ⟨h4.1, by simpa using h3.2⟩
  · have hc := mem_of_head?_some _ _ h
    have h3 := List.mem_filter.mp hc
    have h4 := List.mem_filter.mp h3.1
    exact ⟨h4.1, by simpa using h3.2⟩
  · split at h
    · exact absurd h (by simp)
    · rename_i bs bn rest hsc
      split_ifs at h with hcond
      have hbn : c = bn := (Option.some.inj h).symm
      subst hbn
      have hmem : (bs, c) ∈ sortScoredDesc (fuzzyScored ratio nfkd w used
          (normalize_name nfkd s)) := by
        rw [hsc]
        exact List.mem_cons_self _ _
      unfold sortScoredDesc at hmem
      rw [List.mem_mergeSort] at hmem
      simp only [fuzzyScored] at hmem
      obtain ⟨wn, hwn, hf⟩ := List.mem_map.mp hmem
      have hwb : wn = c := congrArg Prod.snd hf
      subst hwb
      have h3 := List.mem_filter.mp hwn
      exact ⟨h3.1, by simpa using h3.2⟩

/-- The loop step when the query finds no candidate. -/
theorem matchStep_none (ratio : String → String → Q) (nfkd : Char → List Char)
    (w used : List String) (mp : List (String × String)) (unmatched : List String)
    (q : String) (h : chooseCandidate ratio nfkd w used q = none) :
    matchStep ratio nfkd w (used, mp, unmatched) q = (used, mp, unmatched ++ [q]) := by
  simp only [matchStep, h]

/-- The loop step when the query claims a candidate. -/
theorem matchStep_some (ratio : String → String → Q) (nfkd : Char → List Char)
    (w used : List String) (mp : List (String × String)) (unmatched : List String)
    (q chosen : String) (h : chooseCandidate ratio nfkd w used q = some chosen) :
    matchStep ratio nfkd w (used, mp, unmatched) q
      = (used ++ [chosen], assocSet q chosen mp, unmatched) := by
  simp only [matchStep, h]

/-- Claims recorded in the mapping persist through the rest of the loop. -/
theorem matchFold_preserves_key (ratio : String → String → Q) (nfkd : Char → List Char)
    (w : List String) :
    ∀ (qs : List String) (st : List String × List (String × String) × List String)
      (s : String), (∃ c, (s, c) ∈ st.2.1) →
      ∃ c, (s, c) ∈ (qs.foldl (matchStep ratio nfkd w) st).2.1 := by
  intro qs
  induction qs with
  | nil => intro st s h; exact h
  | cons q t ih =>
    intro st s h
    obtain ⟨used, mp, unmatched⟩ := st
    rw [List.foldl_cons]
    cases hch : chooseCandidate ratio nfkd w used q with
    | none =>
      rw [matchStep_none ratio nfkd w used mp unmatched q hch]
      exact ih (used, mp, unmatched ++ [q]) s h
    | some chosen =>
      rw [matchStep_some ratio nfkd w used mp unmatched q chosen hch]
      exact ih _ s (assocSet_preserves_key q chosen mp s h)

/-- Unmatched queries persist through the rest of the loop. -/
theorem matchFold_preserves_unmatched (ratio : String → String → Q)
    (nfkd : Char → List Char) (w : List String) :
    ∀ (qs : List String) (st : List String × List (String × String) × List String)
      (s : String), s ∈ st.2.2 → s ∈ (qs.foldl (matchStep ratio nfkd w) st).2.2 := by
  intro qs
  induction qs with
  | nil => intro st s h; exact h
  | cons q t ih =>
    intro st s h
    obtain ⟨used, mp, unmatched⟩ := st
    rw [List.foldl_cons]
    cases hch : chooseCandidate ratio nfkd w used q with
    | none =>
      rw [matchStep_none ratio nfkd w used mp unmatched q hch]
      exact ih _ s (List.mem_append.mpr (Or.inl h))
    | some chosen =>
      rw [matchStep_some ratio nfkd w used mp unmatched q chosen hch]
      exact ih _ s h

/-- Every processed query ends up as a mapping key or unmatched. -/
theorem matchFold_complete (ratio : String → String → Q) (nfkd : Char → List Char)
    (w : List String) :
    ∀ (qs : List String) (st : List String × List (String × String) × List String)
      (s : String), s ∈ qs →
      (∃ c, (s, c) ∈ (qs.foldl (matchStep ratio nfkd w) st).2.1)
      ∨ s ∈ (qs.foldl (matchStep ratio nfkd w) st).2.2 := by
  intro qs
  induction qs with
  | nil => intro st s h; exact absurd h (List.not_mem_nil s)
  | cons q t ih =>
    intro st s hs
    obtain ⟨used, mp, unmatched⟩ := st
    rw [List.foldl_cons]
    rcases List.mem_cons.mp hs with rfl | hmem
    · cases hch : chooseCandidate ratio nfkd w used s with
      | none =>
        rw [matchStep_none ratio nfkd w used mp unmatched s hch]
        right
        exact matchFold_preserves_unmatched ratio nfkd w t _ s
          (List.mem_append.mpr (Or.inr (List.mem_singleton.mpr rfl)))
      | some chosen =>
        rw [matchStep_some ratio nfkd w used mp unmatched s chosen hch]
        left
        exact matchFold_preserves_key ratio nfkd w t _ s
          ⟨chosen, mem_assocSet_self s chosen mp⟩
    · exact ih (matchStep ratio nfkd w (used, mp, unmatched) q) s hmem

/-- Mapping values stay pairwise distinct and claimed into the used set. -/
theorem matchFold_inv (ratio : String → String → Q) (nfkd : Char → List Char)
    (w : List String) :
    ∀ (qs : List String) (st : List String × List (String × String) × List String),
      (st.2.1.map Prod.snd).Nodup → (∀ v ∈ st.2.1.map Prod.snd, v ∈ st.1) →
      ((qs.foldl (matchStep ratio nfkd w) st).2.1.map Prod.snd).Nodup
      ∧ (∀ v ∈ (qs.foldl (matchStep ratio nfkd w) st).2.1.map Prod.snd,
          v ∈ (qs.foldl (matchStep ratio nfkd w) st).1) := by
  intro qs
  induction qs with
  | nil => intro st h1 h2; exact ⟨h1, h2⟩
  | cons q t ih =>
    intro st h1 h2
    obtain ⟨used, mp, unmatched⟩ := st
    rw [List.foldl_cons]
    cases hch : chooseCandidate ratio nfkd w used q with
    | none =>
      rw [matchStep_none ratio nfkd w used mp unmatched q hch]
      exact ih (used, mp, unmatched ++ [q]) h1 h2
    | some chosen =>
      rw [matchStep_some ratio nfkd w used mp unmatched q chosen hch]
      have hspec := chooseCandidate_spec ratio nfkd w used q chosen hch
      have hfresh : chosen ∉ mp.map Prod.snd := fun hmem => hspec.2 (h2 chosen hmem)
      refine ih _ (nodup_snd_assocSet q chosen mp h1 hfresh) ?_
      intro v hv
      obtain ⟨y, hy, hysnd⟩ := List.mem_map.mp hv
      rcases mem_assocSet q chosen mp y hy with hold | hnew
      · exact List.mem_append.mpr (Or.inl (h2 v (List.mem_map.mpr ⟨y, hold, hysnd⟩)))
      · rw [hnew] at hysnd
        rw [← hysnd]
        exact List.mem_append.mpr (Or.inr (List.mem_singleton.mpr rfl))

/-- Mapping keys come from the processed queries, values from the candidate
list. -/
theorem matchFold_pairs (ratio : String → String → Q) (nfkd : Char → List Char)
    (w : List String) :
    ∀ (qs : List String) (st : List String × List (String × String) × List String)
      (p : String × String), p ∈ (qs.foldl (matchStep ratio nfkd w) st).2.1 →
      p ∈ st.2.1 ∨ (p.1 ∈ qs ∧ p.2 ∈ w) := by
  intro qs
  induction qs with
  | nil => intro st p hp; exact Or.inl hp
  | cons q t ih =>
    intro st p hp
    obtain ⟨used, mp, unmatched⟩ := st
    rw [List.foldl_cons] at hp
    cases hch : chooseCandidate ratio nfkd w used q with
    | none =>
      rw [matchStep_none ratio nfkd w used mp unmatched q hch] at hp
      rcases ih _ p hp with h | h
      · exact Or.inl h
      · exact Or.inr ⟨List.mem_cons_of_mem _ h.1, h.2⟩
    | some chosen =>
      rw [matchStep_some ratio nfkd w used mp unmatched q chosen hch] at hp
      rcases ih _ p hp with h | h
      · rcases mem_assocSet q chosen mp p h with hold | hnew
        · exact Or.inl hold
        · refine Or.inr ⟨?_, ?_⟩
          · rw [hnew]
            exact List.mem_cons_self _ _
          · rw [hnew]
            exact (chooseCandidate_spec ratio nfkd w used q chosen hch).1
      · exact Or.inr ⟨List.mem_cons_of_mem _ h.1, h.2⟩

/-- Unmatched entries come from the processed queries. -/
theorem matchFold_unmatched (ratio : String → String → Q) (nfkd : Char → List Char)
    (w : List String) :
    ∀ (qs : List String) (st : List String × List (String × String) × List String)
      (u : String), u ∈ (qs.foldl (matchStep ratio nfkd w) st).2.2 →
      u ∈ st.2.2 ∨ u ∈ qs := by
  intro qs
  induction qs with
  | nil => intro st u hu; exact Or.inl hu
  | cons q t ih =>
    intro st u hu
    obtain ⟨used, mp, unmatched⟩ := st
    rw [List.foldl_cons] at hu
    cases hch : chooseCandidate ratio nfkd w used q with
    | none =>
      rw [matchStep_none ratio nfkd w used mp unmatched q hch] at hu
      rcases ih _ u hu with h | h
      · rcases List.mem_append.mp h with h2 | h2
        · exact Or.inl h2
        · exact Or.inr (List.mem_cons.mpr (Or.inl (List.mem_singleton.mp h2)))
      · exact Or.inr (List.mem_cons_of_mem _ h)
    | some chosen =>
      rw [matchStep_some ratio nfkd w used mp unmatched q chosen hch] at hu
      rcases ih _ u hu with h | h
      · exact Or.inl h
      · exact Or.inr (List.mem_cons_of_mem _ h)

/-- C8: the name-matching pass partitions its inputs — mapping values are
pairwise distinct (each candidate is claimed by at most one query); every
query ends as a mapping key or in the unmatched list (none dropped); keys
come from the queries and values from the candidates; unmatched entries come
from the queries; and the result on an extended query list is the one-step
extension of the fold state of the shorter list, so candidates are consumed
in query input order, first claimed wins. -/
theorem C8_matching_partition (ratio : String → String → Q) (nfkd : Char → List Char)
    (workbookNames sourceNames : List String) (s : String) (hs : s ∈ sourceNames) :
    ((match_names ratio nfkd workbookNames sourceNames).1.map Prod.snd).Nodup
    ∧ ((∃ c, (s, c) ∈ (match_names ratio nfkd workbookNames sourceNames).1)
        ∨ s ∈ (match_names ratio nfkd workbookNames sourceNames).2)
    ∧ (∀ p ∈ (match_names ratio nfkd workbookNames sourceNames).1,
        p.1 ∈ sourceNames ∧ p.2 ∈ workbookNames)
    ∧ (∀ u ∈ (match_names ratio nfkd workbookNames sourceNames).2, u ∈ sourceNames)
    ∧ (∀ q, match_names ratio nfkd workbookNames (sourceNames ++ [q])
        = ((matchStep ratio nfkd workbookNames
              (sourceNames.foldl (matchStep ratio nfkd workbookNames) ([], [], [])) q).2.1,
           (matchStep ratio nfkd workbookNames
              (sourceNames.foldl (matchStep ratio nfkd workbookNames) ([], [], [])) q).2.2)) := by
  refine ⟨?_, ?_, ?_, ?_, ?_⟩
  · exact (matchFold_inv ratio nfkd workbookNames sourceNames ([], [], [])
      (by simp) (by simp)).1
  · exact matchFold_complete ratio nfkd workbookNames sourceNames ([], [], []) s hs
  · intro p hp
    rcases matchFold_pairs ratio nfkd workbookNames sourceNames ([], [], []) p hp with h | h
    · exact absurd h (List.not_mem_nil p)
    · exact h
  · intro u hu
    rcases matchFold_unmatched ratio nfkd workbookNames sourceNames ([], [], []) u hu with h | h
    · exact absurd h (List.not_mem_nil u)
    · exact h
  · intro q
    unfold match_names
    rw [List.foldl_append]
    rfl

/-- C8 witness: on a concrete run the mapping values are pairwise
distinct. -/
theorem C8_matching_partition_witness :
    ((match_names (fun _ _ => Q.ofInt 0) (fun c => [c])
        ["alice smith", "bob jones"] ["Alice Smith", "Zed"]).1.map Prod.snd).Nodup :=
  (C8_matching_partition (fun _ _ => Q.ofInt 0) (fun c => [c])
    ["alice smith", "bob jones"] ["Alice Smith", "Zed"] "Zed" (by decide)).1

/-- C9 witness: `3/2` renders as `"1.5"` — it contains a point and does not
end in a zero. -/
theorem C9_numeric_canonical_form_witness :
    '.' ∈ (format_decimal_for_excel (Q.mkd 3 2)).toList
    ∧ (format_decimal_for_excel (Q.mkd 3 2)).toList.getLast? ≠ some '0' :=
  ⟨by decide, (C9_numeric_canonical_form (Q.mkd 3 2)).2.1 (by decide)⟩

end Payroll
